import Mathlib

/-!
# Verification of the enmime MIME encoding engine

A shallow embedding of `encode.go` (package enmime).  Byte strings are
modelled as `List Nat` with every byte below 256; Go integer arithmetic on
non-negative quantities is modelled by `Nat` arithmetic.  Helper routines of
the repository or of the Go standard library that are called by `encode.go`
but whose source is not part of the analysed tree (`stringutil.Wrap`,
`stringutil.UUID`, `coding.ToIDHeader`, `mime.FormatMediaType`,
`mime.BEncoding` / `mime.QEncoding`, and the `Part` structure itself) are
modelled from the specification; each such definition carries a doc comment
saying so.  Functions translated directly from `encode.go` or from the Go
standard library packages `encoding/base64` and `mime/quotedprintable`
follow the source line by line.
-/

namespace Enmime

/-- Byte string literal helper: a list of characters to their byte values.
All names used by the encoder are plain ASCII. -/
def cs (l : List Char) : List Nat := l.map Char.toNat

/-- `TransferEncoding` from encode.go: `Te7Bit`, `TeQuoted`, `TeBase64`,
`TeRaw`, `TeAuto`. -/
inductive TransferEncoding : Type where
  | Te7Bit : TransferEncoding
  | TeQuoted : TransferEncoding
  | TeBase64 : TransferEncoding
  | TeRaw : TransferEncoding
  | TeAuto : TransferEncoding
deriving DecidableEq, Repr

export TransferEncoding (Te7Bit TeQuoted TeBase64 TeRaw TeAuto)

/-- `b64Percent` from encode.go: percent of non-ASCII bytes tolerated before
switching from quoted-printable to base64. -/
def b64Percent : Nat := 20

/-- The scan loop of `selectTransferEncoding` (encode.go lines 383-402):
walks the remaining bytes carrying the running binary count, the maximum
line length seen so far and the current line length. -/
def selLoop (quoteLineBreaks : Bool) (threshold : Nat) :
    List Nat → Nat → Nat → Nat → TransferEncoding
  | [], bincount, maxLineLen, lineLen =>
    let m := if maxLineLen < lineLen then lineLen else maxLineLen
    if bincount = 0 ∧ m ≤ 78 then Te7Bit else TeQuoted
  | b :: rest, bincount, maxLineLen, lineLen =>
    let mx1 : Nat := if b = 10 ∨ b = 13 then
        (if maxLineLen < lineLen then lineLen else maxLineLen) else maxLineLen
    let ln1 : Nat := if b = 10 ∨ b = 13 then 0 else lineLen + 1
    if (b < 32 ∨ 126 < b) ∧ b ≠ 9 then
      if quoteLineBreaks = false ∧ (b = 13 ∨ b = 10) then
        selLoop quoteLineBreaks threshold rest bincount mx1 ln1
      else if bincount + 1 ≥ threshold then TeBase64
      else selLoop quoteLineBreaks threshold rest (bincount + 1) mx1 ln1
    else selLoop quoteLineBreaks threshold rest bincount mx1 ln1

/-- `selectTransferEncoding` from encode.go (lines 374-412): scans content
for non-ASCII bytes and overlong lines and selects 7bit, quoted-printable
or base64 encoding. -/
def selectTransferEncoding (content : List Nat) (quoteLineBreaks : Bool) :
    TransferEncoding :=
  if content.length = 0 then Te7Bit
  else selLoop quoteLineBreaks (b64Percent * content.length / 100) content 0 0 0

/-- Specification-side maximum line length: length of the longest maximal
run of bytes between `\n`/`\r` line-break bytes, continued from a running
maximum `mx` and a current run length `ln`. -/
def runMax : List Nat → Nat → Nat → Nat
  | [], mx, ln => max mx ln
  | b :: rest, mx, ln =>
    if b = 10 ∨ b = 13 then runMax rest (max mx ln) 0
    else runMax rest mx (ln + 1)

/-- Length of the longest line of `c` (maximal run between line breaks). -/
def maxLineLen (c : List Nat) : Nat := runMax c 0 0

/-- The claim's literal allowed set for 7-bit: printable ASCII 0x20-0x7E or
tab 0x09. -/
def printable7 (b : Nat) : Prop := (32 ≤ b ∧ b ≤ 126) ∨ b = 9

instance (b : Nat) : Decidable (printable7 b) := by
  unfold printable7; infer_instance

/-- Allowed set actually accepted by the scanner in body mode: printable
ASCII, tab, or a line-break byte. -/
def bodySafe7 (b : Nat) : Prop :=
  (32 ≤ b ∧ b ≤ 126) ∨ b = 9 ∨ b = 10 ∨ b = 13

instance (b : Nat) : Decidable (bodySafe7 b) := by
  unfold bodySafe7; infer_instance

/-- A byte that the scanner counts toward the binary tally: outside
printable ASCII and not tab, and (in body mode) not a line break. -/
def isBinChar (quoteLineBreaks : Bool) (b : Nat) : Bool :=
  if ((b < 32 ∨ 126 < b) ∧ b ≠ 9) ∧ (quoteLineBreaks = true ∨ ¬(b = 13 ∨ b = 10))
  then true else false

/-- Number of qualifying binary bytes of `c`. -/
def binCount (qlb : Bool) (c : List Nat) : Nat :=
  (c.filter (isBinChar qlb)).length

theorem isBinChar_true_iff (qlb : Bool) (b : Nat) :
    isBinChar qlb b = true ↔
      (((b < 32 ∨ 126 < b) ∧ b ≠ 9) ∧ (qlb = true ∨ ¬(b = 13 ∨ b = 10))) := by
  unfold isBinChar
  by_cases h : ((b < 32 ∨ 126 < b) ∧ b ≠ 9) ∧ (qlb = true ∨ ¬(b = 13 ∨ b = 10))
  · rw [if_pos h]; exact iff_of_true rfl h
  · rw [if_neg h]; exact iff_of_false (by simp) h

theorem isBinChar_false_iff (qlb : Bool) (b : Nat) :
    isBinChar qlb b = false ↔
      ¬(((b < 32 ∨ 126 < b) ∧ b ≠ 9) ∧ (qlb = true ∨ ¬(b = 13 ∨ b = 10))) := by
  rw [← not_iff_not, Bool.not_eq_false, isBinChar_true_iff, not_not]

theorem isBinChar_false_iff_bodySafe (b : Nat) :
    isBinChar false b = false ↔ bodySafe7 b := by
  rw [isBinChar_false_iff]
  unfold bodySafe7
  constructor
  · intro h
    by_cases h13 : b = 13
    · right; right; right; exact h13
    · by_cases h10 : b = 10
      · right; right; left; exact h10
      · by_cases h9 : b = 9
        · right; left; exact h9
        · left
          constructor
          · by_contra hlt
            push_neg at hlt
            exact h ⟨⟨Or.inl (by omega), h9⟩, Or.inr (by tauto)⟩
          · by_contra hgt
            push_neg at hgt
            exact h ⟨⟨Or.inr (by omega), h9⟩, Or.inr (by tauto)⟩
  · rintro (h | h | h | h)
    · rintro ⟨⟨hl, _⟩, _⟩; omega
    · rintro ⟨⟨_, h9⟩, _⟩; exact h9 h
    · rintro ⟨_, (hq | hlb)⟩
      · exact absurd hq (by simp)
      · exact hlb (Or.inr h)
    · rintro ⟨_, (hq | hlb)⟩
      · exact absurd hq (by simp)
      · exact hlb (Or.inl h)

theorem selLoop_ne_7bit (qlb : Bool) (th : Nat) :
    ∀ (rest : List Nat) (bc mx ln : Nat), 0 < bc →
      selLoop qlb th rest bc mx ln ≠ Te7Bit := by
  intro rest
  induction rest with
  | nil =>
    intro bc mx ln hbc
    simp only [selLoop]
    rw [if_neg (by rintro ⟨h0, _⟩; omega)]
    decide
  | cons b r ih =>
    intro bc mx ln hbc
    simp only [selLoop]
    by_cases h1 : (b < 32 ∨ 126 < b) ∧ b ≠ 9
    · rw [if_pos h1]
      by_cases h2 : qlb = false ∧ (b = 13 ∨ b = 10)
      · rw [if_pos h2]; exact ih bc _ _ hbc
      · rw [if_neg h2]
        by_cases h3 : bc + 1 ≥ th
        · rw [if_pos h3]; decide
        · rw [if_neg h3]; exact ih (bc + 1) _ _ (by omega)
    · rw [if_neg h1]; exact ih bc _ _ hbc

theorem selLoop_7bit_iff (qlb : Bool) (th : Nat) :
    ∀ (rest : List Nat) (mx ln : Nat),
      selLoop qlb th rest 0 mx ln = Te7Bit ↔
        ((∀ b ∈ rest, isBinChar qlb b = false) ∧ runMax rest mx ln ≤ 78) := by
  intro rest
  induction rest with
  | nil =>
    intro mx ln
    simp only [selLoop, runMax]
    rw [show (if mx < ln then ln else mx) = max mx ln by split <;> omega]
    by_cases h : max mx ln ≤ 78
    · rw [if_pos ⟨by simp, h⟩]
      exact iff_of_true rfl ⟨by simp, h⟩
    · rw [if_neg (by rintro ⟨_, hc⟩; exact h hc)]
      exact iff_of_false (by decide) (by rintro ⟨_, hc⟩; exact h hc)
  | cons b r ih =>
    intro mx ln
    simp only [selLoop, runMax]
    by_cases hb : b = 10 ∨ b = 13
    · simp only [if_pos hb]
      rw [show (if mx < ln then ln else mx) = max mx ln by split <;> omega]
      have h1 : (b < 32 ∨ 126 < b) ∧ b ≠ 9 := by
        rcases hb with rfl | rfl <;> exact ⟨Or.inl (by omega), by omega⟩
      rw [if_pos h1]
      by_cases h2 : qlb = false ∧ (b = 13 ∨ b = 10)
      · -- body mode: line break skipped
        have hchar : isBinChar qlb b = false := by
          rw [isBinChar_false_iff]
          rintro ⟨_, (hq | hlb)⟩
          · rw [h2.1] at hq; exact absurd hq (by simp)
          · exact hlb h2.2
        rw [if_pos h2, ih]
        constructor
        · rintro ⟨hall, hrm⟩
          refine ⟨?_, hrm⟩
          intro x hx
          rcases List.mem_cons.mp hx with rfl | hx
          · exact hchar
          · exact hall x hx
        · rintro ⟨hall, hrm⟩
          exact ⟨fun x hx => hall x (List.mem_cons_of_mem b hx), hrm⟩
      · -- header mode: the line break is a counted binary byte
        have hchar : isBinChar qlb b = true := by
          rw [isBinChar_true_iff]
          refine ⟨h1, ?_⟩
          cases qlb with
          | true => exact Or.inl rfl
          | false => exact Or.inr (fun hc => h2 ⟨rfl, hc⟩)
        rw [if_neg h2]
        constructor
        · intro h7
          exfalso
          by_cases h3 : 0 + 1 ≥ th
          · rw [if_pos h3] at h7; exact absurd h7 (by decide)
          · rw [if_neg h3] at h7
            exact selLoop_ne_7bit qlb th r 1 _ _ (by omega) h7
        · rintro ⟨hall, _⟩
          have := hall b (List.mem_cons_self b r)
          rw [hchar] at this
          exact absurd this (by decide)
    · simp only [if_neg hb]
      by_cases h1 : (b < 32 ∨ 126 < b) ∧ b ≠ 9
      · -- counted binary byte (not a line break)
        have hchar : isBinChar qlb b = true := by
          rw [isBinChar_true_iff]
          exact ⟨h1, Or.inr (by tauto)⟩
        rw [if_pos h1, if_neg (by rintro ⟨_, hc⟩; exact hb (by tauto))]
        constructor
        · intro h7
          exfalso
          by_cases h3 : 0 + 1 ≥ th
          · rw [if_pos h3] at h7; exact absurd h7 (by decide)
          · rw [if_neg h3] at h7
            exact selLoop_ne_7bit qlb th r 1 _ _ (by omega) h7
        · rintro ⟨hall, _⟩
          have := hall b (List.mem_cons_self b r)
          rw [hchar] at this
          exact absurd this (by decide)
      · -- ordinary printable byte
        have hchar : isBinChar qlb b = false := by
          rw [isBinChar_false_iff]
          rintro ⟨hc, _⟩; exact h1 hc
        rw [if_neg h1, ih]
        constructor
        · rintro ⟨hall, hrm⟩
          refine ⟨?_, hrm⟩
          intro x hx
          rcases List.mem_cons.mp hx with rfl | hx
          · exact hchar
          · exact hall x hx
        · rintro ⟨hall, hrm⟩
          exact ⟨fun x hx => hall x (List.mem_cons_of_mem b hx), hrm⟩

/-- C1, counterexample: the byte string `"a\na"` contains the byte 0x0A,
which lies outside printable ASCII 0x20-0x7E and is not tab 0x09, yet the
selector still returns 7-bit: line-break bytes are exempted from the
binary tally in body mode, so the claim's literal byte condition does not
match the code. -/
theorem C1_counterexample :
    selectTransferEncoding [97, 10, 97] false = Te7Bit ∧
      ¬ ((∀ b ∈ [97, 10, 97], printable7 b) ∧ maxLineLen [97, 10, 97] ≤ 78) := by
  decide

/-- C1, amended: `selectTransferEncoding(c, quoteLineBreaks := false)`
returns 7-bit iff every byte of `c` is printable ASCII 0x20-0x7E, tab 0x09,
or one of the line-break bytes 0x0A/0x0D, and no line (maximal run of bytes
between line-break bytes) is longer than 78 bytes. -/
theorem C1_amended (c : List Nat) :
    selectTransferEncoding c false = Te7Bit ↔
      ((∀ b ∈ c, bodySafe7 b) ∧ maxLineLen c ≤ 78) := by
  unfold selectTransferEncoding maxLineLen
  by_cases hc : c.length = 0
  · have hnil : c = [] := List.length_eq_zero.mp hc
    subst hnil
    simp [runMax]
  · rw [if_neg hc, selLoop_7bit_iff]
    constructor
    · rintro ⟨hall, hrm⟩
      exact ⟨fun b hb => (isBinChar_false_iff_bodySafe b).mp (hall b hb), hrm⟩
    · rintro ⟨hall, hrm⟩
      exact ⟨fun b hb => (isBinChar_false_iff_bodySafe b).mpr (hall b hb), hrm⟩

theorem selLoop_base64_iff (qlb : Bool) (th : Nat) :
    ∀ (rest : List Nat) (bc mx ln : Nat),
      selLoop qlb th rest bc mx ln = TeBase64 ↔
        (1 ≤ binCount qlb rest ∧ th ≤ bc + binCount qlb rest) := by
  intro rest
  induction rest with
  | nil =>
    intro bc mx ln
    simp only [selLoop, binCount, List.filter_nil, List.length_nil]
    constructor
    · intro h
      exfalso
      by_cases hc : bc = 0 ∧ (if mx < ln then ln else mx) ≤ 78
      · rw [if_pos hc] at h; exact absurd h (by decide)
      · rw [if_neg hc] at h; exact absurd h (by decide)
    · rintro ⟨h1, _⟩; omega
  | cons b r ih =>
    intro bc mx ln
    simp only [selLoop]
    by_cases h1 : (b < 32 ∨ 126 < b) ∧ b ≠ 9
    · rw [if_pos h1]
      by_cases h2 : qlb = false ∧ (b = 13 ∨ b = 10)
      · have hchar : isBinChar qlb b = false := by
          rw [isBinChar_false_iff]
          rintro ⟨_, (hq | hlb)⟩
          · rw [h2.1] at hq; exact absurd hq (by simp)
          · exact hlb h2.2
        rw [if_pos h2, ih]
        simp [binCount, List.filter_cons, hchar]
      · have hchar : isBinChar qlb b = true := by
          rw [isBinChar_true_iff]
          refine ⟨h1, ?_⟩
          cases qlb with
          | true => exact Or.inl rfl
          | false => exact Or.inr (fun hc => h2 ⟨rfl, hc⟩)
        have hcount : binCount qlb (b :: r) = 1 + binCount qlb r := by
          simp only [binCount, List.filter_cons, hchar, if_pos]
          simp [Nat.add_comm]
        rw [if_neg h2]
        by_cases h3 : bc + 1 ≥ th
        · rw [if_pos h3]
          rw [hcount]
          constructor
          · intro _
            constructor
            · omega
            · have := binCount qlb r; omega
          · intro _; rfl
        · rw [if_neg h3, ih, hcount]
          constructor
          · rintro ⟨hc1, hc2⟩; exact ⟨by omega, by omega⟩
          · rintro ⟨_, hc2⟩
            have hc1 : 1 ≤ binCount qlb r := by omega
            exact ⟨hc1, by omega⟩
    · have hchar : isBinChar qlb b = false := by
        rw [isBinChar_false_iff]
        rintro ⟨hc, _⟩; exact h1 hc
      rw [if_neg h1, ih]
      simp [binCount, List.filter_cons, hchar]

/-- C2, counterexample: for the six-byte string with a single binary byte
0xC8, the integer threshold `20*6/100 = 1` is already reached by one binary
byte, so the selector returns base64, although one byte is strictly less
than 20% of six bytes: no prefix count ever reaches a true 20% of the total
length. -/
theorem C2_counterexample :
    selectTransferEncoding [97, 97, 97, 97, 97, 200] false = TeBase64 ∧
      ¬ (∃ k ≤ 6, 6 ≤ 5 * binCount false (List.take k [97, 97, 97, 97, 97, 200])) := by
  decide

/-- C2, amended: for every byte string and either flag value, the selector
returns base64 iff the total count of qualifying binary bytes reaches the
integer threshold `20 * length / 100` (rounded down), and is at least one.
Because the tally only grows during the scan and the early exit fires the
moment the threshold is reached, reaching it at some prefix of the scan is
the same as the full count reaching it. -/
theorem C2_amended (c : List Nat) (qlb : Bool) :
    selectTransferEncoding c qlb = TeBase64 ↔
      max (b64Percent * c.length / 100) 1 ≤ binCount qlb c := by
  unfold selectTransferEncoding
  by_cases hc : c.length = 0
  · have hnil : c = [] := List.length_eq_zero.mp hc
    subst hnil
    simp [binCount]
  · rw [if_neg hc, selLoop_base64_iff]
    omega

/-! ## Base64 (Go `encoding/base64`, `StdEncoding`) -/

/-- The standard base64 alphabet as a function from a 6-bit index to its
ASCII byte: `A`-`Z`, `a`-`z`, `0`-`9`, `+`, `/` (indices ≥ 64 cannot arise
from in-range bytes and are clamped to `/`). -/
def b64Char (n : Nat) : Nat :=
  if n < 26 then 65 + n
  else if n < 52 then 97 + (n - 26)
  else if n < 62 then 48 + (n - 52)
  else if n = 62 then 43
  else 47

/-- Inverse of the base64 alphabet: byte value to 6-bit index. -/
def b64Idx (c : Nat) : Nat :=
  if 65 ≤ c ∧ c ≤ 90 then c - 65
  else if 97 ≤ c ∧ c ≤ 122 then 26 + (c - 97)
  else if 48 ≤ c ∧ c ≤ 57 then 52 + (c - 48)
  else if c = 43 then 62
  else 63

/-- `base64.StdEncoding.Encode`: three input bytes become four alphabet
bytes; a final group of one or two bytes is completed with `=` padding
(byte 61). -/
def base64Encode : List Nat → List Nat
  | [] => []
  | [a] => [b64Char (a / 4), b64Char (a % 4 * 16), 61, 61]
  | [a, b] =>
      [b64Char (a / 4), b64Char (a % 4 * 16 + b / 16), b64Char (b % 16 * 4), 61]
  | a :: b :: c :: rest =>
      b64Char (a / 4) :: b64Char (a % 4 * 16 + b / 16) ::
        b64Char (b % 16 * 4 + c / 64) :: b64Char (c % 64) :: base64Encode rest

/-- Base64 decoding of a stream of four-byte groups, with `=` padding
allowed only in the final group. -/
def base64Decode : List Nat → Option (List Nat)
  | c1 :: c2 :: c3 :: c4 :: rest =>
    if c3 = 61 ∧ c4 = 61 ∧ rest = [] then
      some [b64Idx c1 * 4 + b64Idx c2 / 16]
    else if c4 = 61 ∧ rest = [] then
      some [b64Idx c1 * 4 + b64Idx c2 / 16, b64Idx c2 % 16 * 16 + b64Idx c3 / 4]
    else
      (base64Decode rest).map
        (fun tail =>
          (b64Idx c1 * 4 + b64Idx c2 / 16) ::
            (b64Idx c2 % 16 * 16 + b64Idx c3 / 4) ::
            (b64Idx c3 % 4 * 64 + b64Idx c4) :: tail)
  | [] => some []
  | _ => none

theorem b64Idx_b64Char (n : Nat) (h : n < 64) : b64Idx (b64Char n) = n := by
  unfold b64Char b64Idx
  split_ifs <;> omega

theorem b64Char_ne_61 (n : Nat) : b64Char n ≠ 61 := by
  unfold b64Char; split_ifs <;> omega

theorem b64Char_ne_13 (n : Nat) : b64Char n ≠ 13 := by
  unfold b64Char; split_ifs <;> omega

theorem b64Char_ne_10 (n : Nat) : b64Char n ≠ 10 := by
  unfold b64Char; split_ifs <;> omega

/-- Base64 round trip on unwrapped output. -/
theorem base64_roundtrip :
    ∀ c : List Nat, (∀ b ∈ c, b < 256) →
      base64Decode (base64Encode c) = some c
  | [], _ => rfl
  | [a], h => by
    have ha : a < 256 := h a (by simp)
    simp only [base64Encode, base64Decode]
    rw [if_pos (by simp)]
    have h1 : a / 4 < 64 := by omega
    have h2 : a % 4 * 16 < 64 := by omega
    rw [b64Idx_b64Char _ h1, b64Idx_b64Char _ h2]
    congr 1
    congr 1
    omega
  | [a, b], h => by
    have ha : a < 256 := h a (by simp)
    have hb : b < 256 := h b (by simp)
    simp only [base64Encode, base64Decode]
    rw [if_neg (by intro hcon; exact b64Char_ne_61 _ hcon.1)]
    rw [if_pos (by simp)]
    have h1 : a / 4 < 64 := by omega
    have h2 : a % 4 * 16 + b / 16 < 64 := by omega
    have h3 : b % 16 * 4 < 64 := by omega
    rw [b64Idx_b64Char _ h1, b64Idx_b64Char _ h2, b64Idx_b64Char _ h3]
    congr 1
    congr 1
    · omega
    · congr 1
      omega
  | a :: b :: c :: rest, h => by
    have ha : a < 256 := h a (by simp)
    have hb : b < 256 := h b (by simp)
    have hc : c < 256 := h c (by simp)
    have ih := base64_roundtrip rest (fun x hx => h x (by simp [hx]))
    simp only [base64Encode, base64Decode]
    rw [if_neg (by intro hcon; exact b64Char_ne_61 _ hcon.1)]
    rw [if_neg (by intro hcon; exact b64Char_ne_61 _ hcon.1)]
    rw [ih]
    simp only [Option.map_some']
    have h1 : a / 4 < 64 := by omega
    have h2 : a % 4 * 16 + b / 16 < 64 := by omega
    have h3 : b % 16 * 4 + c / 64 < 64 := by omega
    have h4 : c % 64 < 64 := by omega
    rw [b64Idx_b64Char _ h1, b64Idx_b64Char _ h2, b64Idx_b64Char _ h3,
      b64Idx_b64Char _ h4]
    congr 1
    congr 1
    · omega
    · congr 1
      · omega
      · congr 1
        omega

theorem base64Encode_no_crlf :
    ∀ c : List Nat, ∀ x ∈ base64Encode c, ¬(x = 13 ∨ x = 10)
  | [], x, hx => by simp [base64Encode] at hx
  | [a], x, hx => by
    simp only [base64Encode, List.mem_cons, List.not_mem_nil, or_false] at hx
    rcases hx with rfl | rfl | rfl | rfl
    · rintro (h | h); exacts [b64Char_ne_13 _ h, b64Char_ne_10 _ h]
    · rintro (h | h); exacts [b64Char_ne_13 _ h, b64Char_ne_10 _ h]
    · rintro (h | h) <;> omega
    · rintro (h | h) <;> omega
  | [a, b], x, hx => by
    simp only [base64Encode, List.mem_cons, List.not_mem_nil, or_false] at hx
    rcases hx with rfl | rfl | rfl | rfl
    · rintro (h | h); exacts [b64Char_ne_13 _ h, b64Char_ne_10 _ h]
    · rintro (h | h); exacts [b64Char_ne_13 _ h, b64Char_ne_10 _ h]
    · rintro (h | h); exacts [b64Char_ne_13 _ h, b64Char_ne_10 _ h]
    · rintro (h | h) <;> omega
  | a :: b :: c :: rest, x, hx => by
    simp only [base64Encode, List.mem_cons] at hx
    rcases hx with rfl | rfl | rfl | rfl | hx
    · rintro (h | h); exacts [b64Char_ne_13 _ h, b64Char_ne_10 _ h]
    · rintro (h | h); exacts [b64Char_ne_13 _ h, b64Char_ne_10 _ h]
    · rintro (h | h); exacts [b64Char_ne_13 _ h, b64Char_ne_10 _ h]
    · rintro (h | h); exacts [b64Char_ne_13 _ h, b64Char_ne_10 _ h]
    · exact base64Encode_no_crlf rest x hx

/-- `crnl` from encode.go. -/
def crnl : List Nat := [13, 10]

/-- The line terminator for the selected line-ending mode. -/
def eolOf (useLF : Bool) : List Nat := if useLF then [10] else crnl

/-- The base64 line-wrapping loop of `encodeContent` (encode.go lines
271-290): emit 76-byte slices of the encoded text, each followed by the
mode's line terminator, until the text is exhausted. -/
def wrapLines (eol : List Nat) : List Nat → List Nat
  | [] => []
  | b :: t =>
    (b :: t).take 76 ++ eol ++ wrapLines eol ((b :: t).drop 76)
termination_by t => t.length + 1
decreasing_by simp [List.length_drop]; omega

theorem wrapLines_filter (eol : List Nat) (p : Nat → Bool)
    (heol : eol.filter p = []) :
    ∀ n (t : List Nat), t.length ≤ n →
      (wrapLines eol t).filter p = t.filter p := by
  intro n
  induction n with
  | zero =>
    intro t ht
    have : t = [] := List.eq_nil_of_length_eq_zero (by omega)
    subst this
    simp [wrapLines]
  | succ n ih =>
    intro t ht
    match t with
    | [] => simp [wrapLines]
    | b :: t =>
      rw [wrapLines]
      rw [List.filter_append, List.filter_append, heol]
      have hlen : ((b :: t).drop 76).length ≤ n := by
        simp [List.length_drop]
        simp at ht
        omega
      rw [ih _ hlen]
      simp only [List.nil_append, List.append_nil]
      rw [← List.filter_append, List.take_append_drop]

/-- Decoding of an emitted base64 body: strip the line-break bytes that the
wrapping inserted, then base64-decode. -/
def decodeBase64Body (body : List Nat) : Option (List Nat) :=
  base64Decode (body.filter (fun x => !(x = 13 ∨ x = 10)))

/-- Round trip through the wrapped base64 body emitted by the encoder. -/
theorem decodeBase64Body_wrapLines (useLF : Bool) (c : List Nat)
    (h : ∀ b ∈ c, b < 256) :
    decodeBase64Body (wrapLines (eolOf useLF) (base64Encode c)) = some c := by
  unfold decodeBase64Body
  rw [wrapLines_filter _ _ (by cases useLF <;> rfl) (base64Encode c).length _
    (le_refl _)]
  rw [List.filter_eq_self.mpr]
  · exact base64_roundtrip c h
  · intro x hx
    have := base64Encode_no_crlf c x hx
    simp only [Bool.not_eq_true']
    rw [decide_eq_false_iff_not]
    exact this

/-! ## Quoted-printable (Go `mime/quotedprintable`, text mode)

`encodeContent` drives `quotedprintable.NewWriter` (so `Binary = false`)
with a single `Write` of the whole content followed by `Close`.  The
writer's state and helpers below follow `mime/quotedprintable/writer.go`
line by line. -/

/-- Upper-case hex digit of `n` (for `n < 16`): `"0123456789ABCDEF"`. -/
def upperhex (n : Nat) : Nat := if n < 10 then 48 + n else 55 + n

/-- State of the quoted-printable writer: the bytes already flushed to the
sink, the current line buffer `w.line[:w.i]`, and the `w.cr` flag. -/
structure QPState where
  out : List Nat
  line : List Nat
  cr : Bool
deriving Repr, DecidableEq

def qpInit : QPState := { out := [], line := [], cr := false }

/-- `Writer.flush`. -/
def qpFlush (st : QPState) : QPState :=
  { st with out := st.out ++ st.line, line := [] }

/-- `Writer.insertCRLF`: append CR LF to the line and flush. -/
def qpInsertCRLF (st : QPState) : QPState :=
  qpFlush { st with line := st.line ++ [13, 10] }

/-- `Writer.insertSoftLineBreak`: append `=` and insert a CRLF. -/
def qpSoftBreak (st : QPState) : QPState :=
  qpInsertCRLF { st with line := st.line ++ [61] }

/-- `Writer.encode`: soft-break when fewer than three columns remain
(Go: `lineMaxLen-1-w.i < 3` with `lineMaxLen = 76`), then append `=` and
two upper-case hex digits. -/
def qpEncByte (b : Nat) (st : QPState) : QPState :=
  let st1 := if 75 - st.line.length < 3 then qpSoftBreak st else st
  { st1 with line := st1.line ++ [61, upperhex (b / 16), upperhex (b % 16)] }

/-- `Writer.checkLastByte`: a trailing space or tab on the line is dropped
from the buffer and re-emitted in encoded form. -/
def qpCheckLast (st : QPState) : QPState :=
  match st.line.getLast? with
  | some b =>
      if b = 32 ∨ b = 9 then qpEncByte b { st with line := st.line.dropLast }
      else st
  | none => st

/-- The buffering path `Writer.write` for one byte (text mode): CR and LF
drive the CRLF-normalization logic, any other byte is placed on the line,
soft-breaking at column 75. -/
def qpWriteByte (b : Nat) (st : QPState) : QPState :=
  if b = 10 ∨ b = 13 then
    if st.cr = true ∧ b = 10 then { st with cr := false }
    else
      qpInsertCRLF (qpCheckLast (if b = 13 then { st with cr := true } else st))
  else
    let st1 := if st.line.length = 75 then qpSoftBreak st else st
    { st1 with line := st1.line ++ [b], cr := false }

/-- The byte classification of `Writer.Write`: printable bytes other than
`=`, whitespace, and (text mode) CR/LF take the buffering path; every
other byte is hex-encoded. -/
def qpSimple (b : Nat) : Prop :=
  (33 ≤ b ∧ b ≤ 126 ∧ b ≠ 61) ∨ b = 32 ∨ b = 9 ∨ b = 10 ∨ b = 13

instance (b : Nat) : Decidable (qpSimple b) := by
  unfold qpSimple; infer_instance

/-- One byte of `Writer.Write`. -/
def qpStep (st : QPState) (b : Nat) : QPState :=
  if qpSimple b then qpWriteByte b st else qpEncByte b st

/-- `quotedprintable.NewWriter(w); qp.Write(content); qp.Close()` as used
by `encodeContent`: process every byte, then close (`checkLastByte` and a
final flush). -/
def qpEncode (c : List Nat) : List Nat :=
  (qpFlush (qpCheckLast (c.foldl qpStep qpInit))).out

/-- `bytes.ReplaceAll(text, "\r\n", "\n")`: leftmost-first replacement, as
applied by `encodeContent` in LF-only mode. -/
def replaceCrlf : List Nat → List Nat
  | [] => []
  | b :: rest =>
    if b = 13 then
      match rest with
      | [] => [13]
      | x :: r => if x = 10 then 10 :: replaceCrlf r else 13 :: replaceCrlf (x :: r)
    else b :: replaceCrlf rest
termination_by l => l.length
decreasing_by all_goals simp <;> omega

/-- Value of an upper-case hex digit byte. -/
def hexVal (c : Nat) : Nat :=
  if 48 ≤ c ∧ c ≤ 57 then c - 48
  else if 65 ≤ c ∧ c ≤ 70 then c - 55
  else 0

/-- Quoted-printable decoding (RFC 2045): `=` before two hex digits is an
escaped byte, `=` before a (CR)LF is a soft line break and disappears,
every other byte is literal. -/
def qpDecode : List Nat → List Nat
  | [] => []
  | b :: rest =>
    if b = 61 then
      match rest with
      | [] => [61]
      | x :: rest2 =>
        if x = 10 then qpDecode rest2
        else if x = 13 then
          match rest2 with
          | [] => [61, 13]
          | z :: r => if z = 10 then qpDecode r else 61 :: 13 :: qpDecode (z :: r)
        else
          match rest2 with
          | [] => [61, x]
          | y :: r => (hexVal x * 16 + hexVal y) :: qpDecode r
    else b :: qpDecode rest
termination_by l => l.length
decreasing_by all_goals simp <;> omega

/-- Token view of the writer's output: a literal safe byte, a hex-escaped
byte, a soft line break, and a hard line break. -/
inductive QPTok : Type where
  | lit : Nat → QPTok
  | esc : Nat → QPTok
  | soft : QPTok
  | hard : QPTok
deriving Repr, DecidableEq

/-- Bytes of one token as emitted by the writer (CRLF line ends). -/
def tokBytes : QPTok → List Nat
  | .lit b => [b]
  | .esc b => [61, upperhex (b / 16), upperhex (b % 16)]
  | .soft => [61, 13, 10]
  | .hard => [13, 10]

/-- Bytes of one token after CRLF→LF normalization. -/
def tokBytesLF : QPTok → List Nat
  | .lit b => [b]
  | .esc b => [61, upperhex (b / 16), upperhex (b % 16)]
  | .soft => [61, 10]
  | .hard => [10]

/-- Decoded content of one token (CRLF form). -/
def tokDec : QPTok → List Nat
  | .lit b => [b]
  | .esc b => [b]
  | .soft => []
  | .hard => [13, 10]

/-- Decoded content of one token (LF form). -/
def tokDecLF : QPTok → List Nat
  | .lit b => [b]
  | .esc b => [b]
  | .soft => []
  | .hard => [10]

/-- Concatenation of a token rendering. -/
def tokConcat (f : QPTok → List Nat) (T : List QPTok) : List Nat :=
  (T.map f).flatten

/-- Well-formed tokens: literals are exactly the bytes the buffering path
leaves unescaped apart from CR/LF, escapes are real bytes. -/
def tokOK : QPTok → Prop
  | .lit b => (33 ≤ b ∧ b ≤ 126 ∧ b ≠ 61) ∨ b = 32 ∨ b = 9
  | .esc b => b < 256
  | .soft => True
  | .hard => True

/-- Tokens that may sit on the writer's line buffer between steps: the
line never retains CR/LF bytes, so only literals and escapes. -/
def tokLine : QPTok → Prop
  | .lit _ => True
  | .esc _ => True
  | .soft => False
  | .hard => False

/-- Structure of a writer state reached from safe input: `out` and `line`
are concatenations of well-formed token byte sequences, the line holds
only literal/escape tokens and fits the column budget. -/
structure QPRep (st : QPState) (To Tl : List QPTok) : Prop where
  hout : st.out = tokConcat tokBytes To
  hline : st.line = tokConcat tokBytes Tl
  hToOK : ∀ t ∈ To, tokOK t
  hTlOK : ∀ t ∈ Tl, tokOK t
  hTlLine : ∀ t ∈ Tl, tokLine t
  hlen : st.line.length ≤ 75

theorem tokConcat_nil (f : QPTok → List Nat) : tokConcat f [] = [] := rfl

theorem tokConcat_cons (f : QPTok → List Nat) (t : QPTok) (T : List QPTok) :
    tokConcat f (t :: T) = f t ++ tokConcat f T := by
  simp [tokConcat]

theorem tokConcat_append (f : QPTok → List Nat) (T1 T2 : List QPTok) :
    tokConcat f (T1 ++ T2) = tokConcat f T1 ++ tokConcat f T2 := by
  simp [tokConcat]

theorem upperhex_ge (n : Nat) : 48 ≤ upperhex n := by
  unfold upperhex; split_ifs <;> omega

theorem upperhex_ne_61 (n : Nat) : upperhex n ≠ 61 := by
  unfold upperhex; split_ifs <;> omega

theorem hexVal_upperhex (n : Nat) (h : n < 16) : hexVal (upperhex n) = n := by
  unfold upperhex hexVal; split_ifs <;> omega

theorem qpDecode_nil : qpDecode [] = [] := by
  rw [qpDecode.eq_def]

theorem qpDecode_cons_ne {b : Nat} (rest : List Nat) (h : b ≠ 61) :
    qpDecode (b :: rest) = b :: qpDecode rest := by
  rw [qpDecode.eq_def]
  dsimp only
  rw [if_neg h]

theorem qpDecode_esc_eq {x : Nat} (y : Nat) (rest : List Nat)
    (hx10 : x ≠ 10) (hx13 : x ≠ 13) :
    qpDecode (61 :: x :: y :: rest) =
      (hexVal x * 16 + hexVal y) :: qpDecode rest := by
  rw [qpDecode.eq_def]
  dsimp only
  rw [if_pos rfl, if_neg hx10, if_neg hx13]

theorem qpDecode_soft_eq (rest : List Nat) :
    qpDecode (61 :: 13 :: 10 :: rest) = qpDecode rest := by
  rw [qpDecode.eq_def]
  dsimp only
  rw [if_pos rfl, if_neg (by omega), if_pos rfl, if_pos rfl]

theorem qpDecode_softLF_eq (rest : List Nat) :
    qpDecode (61 :: 10 :: rest) = qpDecode rest := by
  rw [qpDecode.eq_def]
  dsimp only
  rw [if_pos rfl, if_pos rfl]

theorem replaceCrlf_nil : replaceCrlf [] = [] := by
  rw [replaceCrlf.eq_def]

theorem replaceCrlf_cons_ne {b : Nat} (rest : List Nat) (h : b ≠ 13) :
    replaceCrlf (b :: rest) = b :: replaceCrlf rest := by
  rw [replaceCrlf.eq_def]
  dsimp only
  rw [if_neg h]

theorem replaceCrlf_crlf (rest : List Nat) :
    replaceCrlf (13 :: 10 :: rest) = 10 :: replaceCrlf rest := by
  rw [replaceCrlf.eq_def]
  dsimp only
  rw [if_pos rfl, if_pos rfl]

/-- Decoding the writer's raw (CRLF) byte stream, token by token. -/
theorem qpDecode_tokens :
    ∀ T : List QPTok, (∀ t ∈ T, tokOK t) →
      qpDecode (tokConcat tokBytes T) = tokConcat tokDec T
  | [], _ => by simp [tokConcat, qpDecode_nil]
  | .lit b :: T, h => by
    have hb : tokOK (.lit b) := h _ (by simp)
    have hb61 : b ≠ 61 := by
      rcases hb with ⟨_, _, h61⟩ | h32 | h9
      · exact h61
      · omega
      · omega
    rw [tokConcat_cons, tokConcat_cons]
    show qpDecode (b :: tokConcat tokBytes T) = b :: tokConcat tokDec T
    rw [qpDecode_cons_ne _ hb61]
    rw [qpDecode_tokens T (fun t ht => h t (by simp [ht]))]
  | .esc b :: T, h => by
    have hb : b < 256 := by
      have hx := h (QPTok.esc b) (by simp)
      simpa [tokOK] using hx
    rw [tokConcat_cons, tokConcat_cons]
    show qpDecode (61 :: upperhex (b / 16) :: upperhex (b % 16) ::
        tokConcat tokBytes T) = b :: tokConcat tokDec T
    rw [qpDecode_esc_eq _ _ (by have := upperhex_ge (b / 16); omega)
      (by have := upperhex_ge (b / 16); omega)]
    rw [hexVal_upperhex _ (by omega), hexVal_upperhex _ (by omega)]
    rw [qpDecode_tokens T (fun t ht => h t (by simp [ht]))]
    congr 1
    omega
  | .soft :: T, h => by
    rw [tokConcat_cons, tokConcat_cons]
    show qpDecode (61 :: 13 :: 10 :: tokConcat tokBytes T) =
      [] ++ tokConcat tokDec T
    rw [qpDecode_soft_eq]
    rw [qpDecode_tokens T (fun t ht => h t (by simp [ht]))]
    simp
  | .hard :: T, h => by
    rw [tokConcat_cons, tokConcat_cons]
    show qpDecode (13 :: 10 :: tokConcat tokBytes T) =
      [13, 10] ++ tokConcat tokDec T
    rw [qpDecode_cons_ne _ (by omega), qpDecode_cons_ne _ (by omega)]
    rw [qpDecode_tokens T (fun t ht => h t (by simp [ht]))]
    simp

/-- CRLF→LF normalization of the writer's byte stream, token by token: the
only CR bytes in the stream are those of soft and hard breaks, each
followed by LF. -/
theorem replaceCrlf_tokens :
    ∀ T : List QPTok, (∀ t ∈ T, tokOK t) →
      replaceCrlf (tokConcat tokBytes T) = tokConcat tokBytesLF T
  | [], _ => by simp [tokConcat, replaceCrlf_nil]
  | .lit b :: T, h => by
    have hb : tokOK (.lit b) := h _ (by simp)
    have hb13 : b ≠ 13 := by
      rcases hb with ⟨hge, _, _⟩ | h32 | h9 <;> omega
    rw [tokConcat_cons, tokConcat_cons]
    show replaceCrlf (b :: tokConcat tokBytes T) = b :: tokConcat tokBytesLF T
    rw [replaceCrlf_cons_ne _ hb13]
    rw [replaceCrlf_tokens T (fun t ht => h t (by simp [ht]))]
  | .esc b :: T, h => by
    rw [tokConcat_cons, tokConcat_cons]
    show replaceCrlf (61 :: upperhex (b / 16) :: upperhex (b % 16) ::
        tokConcat tokBytes T) =
      61 :: upperhex (b / 16) :: upperhex (b % 16) :: tokConcat tokBytesLF T
    rw [replaceCrlf_cons_ne _ (by omega)]
    rw [replaceCrlf_cons_ne _ (by have := upperhex_ge (b / 16); omega)]
    rw [replaceCrlf_cons_ne _ (by have := upperhex_ge (b % 16); omega)]
    rw [replaceCrlf_tokens T (fun t ht => h t (by simp [ht]))]
  | .soft :: T, h => by
    rw [tokConcat_cons, tokConcat_cons]
    show replaceCrlf (61 :: 13 :: 10 :: tokConcat tokBytes T) =
      61 :: 10 :: tokConcat tokBytesLF T
    rw [replaceCrlf_cons_ne _ (by omega)]
    rw [replaceCrlf_crlf]
    rw [replaceCrlf_tokens T (fun t ht => h t (by simp [ht]))]
  | .hard :: T, h => by
    rw [tokConcat_cons, tokConcat_cons]
    show replaceCrlf (13 :: 10 :: tokConcat tokBytes T) =
      10 :: tokConcat tokBytesLF T
    rw [replaceCrlf_crlf]
    rw [replaceCrlf_tokens T (fun t ht => h t (by simp [ht]))]

/-- Decoding the LF-normalized byte stream, token by token. -/
theorem qpDecode_tokensLF :
    ∀ T : List QPTok, (∀ t ∈ T, tokOK t) →
      qpDecode (tokConcat tokBytesLF T) = tokConcat tokDecLF T
  | [], _ => by simp [tokConcat, qpDecode_nil]
  | .lit b :: T, h => by
    have hb : tokOK (.lit b) := h _ (by simp)
    have hb61 : b ≠ 61 := by
      rcases hb with ⟨_, _, h61⟩ | h32 | h9
      · exact h61
      · omega
      · omega
    rw [tokConcat_cons, tokConcat_cons]
    show qpDecode (b :: tokConcat tokBytesLF T) = b :: tokConcat tokDecLF T
    rw [qpDecode_cons_ne _ hb61]
    rw [qpDecode_tokensLF T (fun t ht => h t (by simp [ht]))]
  | .esc b :: T, h => by
    have hb : b < 256 := by
      have hx := h (QPTok.esc b) (by simp)
      simpa [tokOK] using hx
    rw [tokConcat_cons, tokConcat_cons]
    show qpDecode (61 :: upperhex (b / 16) :: upperhex (b % 16) ::
        tokConcat tokBytesLF T) = b :: tokConcat tokDecLF T
    rw [qpDecode_esc_eq _ _ (by have := upperhex_ge (b / 16); omega)
      (by have := upperhex_ge (b / 16); omega)]
    rw [hexVal_upperhex _ (by omega), hexVal_upperhex _ (by omega)]
    rw [qpDecode_tokensLF T (fun t ht => h t (by simp [ht]))]
    congr 1
    omega
  | .soft :: T, h => by
    rw [tokConcat_cons, tokConcat_cons]
    show qpDecode (61 :: 10 :: tokConcat tokBytesLF T) =
      [] ++ tokConcat tokDecLF T
    rw [qpDecode_softLF_eq]
    rw [qpDecode_tokensLF T (fun t ht => h t (by simp [ht]))]
    simp
  | .hard :: T, h => by
    rw [tokConcat_cons, tokConcat_cons]
    show qpDecode (10 :: tokConcat tokBytesLF T) =
      [10] ++ tokConcat tokDecLF T
    rw [qpDecode_cons_ne _ (by omega)]
    rw [qpDecode_tokensLF T (fun t ht => h t (by simp [ht]))]
    simp

theorem mem_single {a b : QPTok} (h : a ∈ [b]) : a = b := by simpa using h

theorem qpFlush_cr (st : QPState) : (qpFlush st).cr = st.cr := rfl

theorem qpInsertCRLF_cr (st : QPState) : (qpInsertCRLF st).cr = st.cr := rfl

theorem qpSoftBreak_cr (st : QPState) : (qpSoftBreak st).cr = st.cr := rfl

theorem qpEncByte_cr (b : Nat) (st : QPState) :
    (qpEncByte b st).cr = st.cr := by
  unfold qpEncByte
  by_cases h : 75 - st.line.length < 3
  · rw [if_pos h]
    rfl
  · rw [if_neg h]

theorem qpCheckLast_cr (st : QPState) : (qpCheckLast st).cr = st.cr := by
  unfold qpCheckLast
  cases hgl : st.line.getLast? with
  | none => rfl
  | some b =>
    show (if b = 32 ∨ b = 9 then
        qpEncByte b { st with line := st.line.dropLast } else st).cr = st.cr
    by_cases hws : b = 32 ∨ b = 9
    · rw [if_pos hws, qpEncByte_cr]
    · rw [if_neg hws]

theorem rep_flush {st : QPState} {To Tl : List QPTok} (h : QPRep st To Tl) :
    QPRep (qpFlush st) (To ++ Tl) [] := by
  refine ⟨?_, ?_, ?_, ?_, ?_, ?_⟩
  · show st.out ++ st.line = _
    rw [h.hout, h.hline, tokConcat_append]
  · rfl
  · intro t ht
    rcases List.mem_append.mp ht with h1 | h2
    exacts [h.hToOK t h1, h.hTlOK t h2]
  · intro t ht; cases ht
  · intro t ht; cases ht
  · show (List.length ([] : List Nat)) ≤ 75
    simp

theorem rep_insertCRLF {st : QPState} {To Tl : List QPTok} (h : QPRep st To Tl) :
    QPRep (qpInsertCRLF st) (To ++ Tl ++ [QPTok.hard]) [] := by
  refine ⟨?_, ?_, ?_, ?_, ?_, ?_⟩
  · show st.out ++ (st.line ++ [13, 10]) = _
    rw [h.hout, h.hline, tokConcat_append, tokConcat_append]
    simp [tokConcat, tokBytes]
  · rfl
  · intro t ht
    rcases List.mem_append.mp ht with h1 | h2
    · rcases List.mem_append.mp h1 with h3 | h4
      exacts [h.hToOK t h3, h.hTlOK t h4]
    · obtain rfl := mem_single h2
      trivial
  · intro t ht; cases ht
  · intro t ht; cases ht
  · show (List.length ([] : List Nat)) ≤ 75
    simp

theorem rep_softBreak {st : QPState} {To Tl : List QPTok} (h : QPRep st To Tl) :
    QPRep (qpSoftBreak st) (To ++ Tl ++ [QPTok.soft]) [] := by
  refine ⟨?_, ?_, ?_, ?_, ?_, ?_⟩
  · show st.out ++ (st.line ++ [61] ++ [13, 10]) = _
    rw [h.hout, h.hline, tokConcat_append, tokConcat_append]
    simp [tokConcat, tokBytes]
  · rfl
  · intro t ht
    rcases List.mem_append.mp ht with h1 | h2
    · rcases List.mem_append.mp h1 with h3 | h4
      exacts [h.hToOK t h3, h.hTlOK t h4]
    · obtain rfl := mem_single h2
      trivial
  · intro t ht; cases ht
  · intro t ht; cases ht
  · show (List.length ([] : List Nat)) ≤ 75
    simp

theorem rep_encByte {st : QPState} {To Tl : List QPTok} (h : QPRep st To Tl)
    (b : Nat) (hb : b < 256) :
    ∃ To2 Tl2, QPRep (qpEncByte b st) To2 Tl2 ∧
      tokConcat tokDec (To2 ++ Tl2) = tokConcat tokDec (To ++ Tl) ++ [b] ∧
      tokConcat tokDecLF (To2 ++ Tl2) = tokConcat tokDecLF (To ++ Tl) ++ [b] := by
  unfold qpEncByte
  by_cases hsp : 75 - st.line.length < 3
  · rw [if_pos hsp]
    have h1 := rep_softBreak h
    refine ⟨To ++ Tl ++ [QPTok.soft], [QPTok.esc b], ⟨?_, ?_, ?_, ?_, ?_, ?_⟩, ?_, ?_⟩
    · show (qpSoftBreak st).out = _
      exact h1.hout
    · show (qpSoftBreak st).line ++ [61, upperhex (b / 16), upperhex (b % 16)] = _
      rw [h1.hline]
      simp [tokConcat, tokBytes]
    · exact h1.hToOK
    · intro t ht
      obtain rfl := mem_single ht
      exact hb
    · intro t ht
      obtain rfl := mem_single ht
      trivial
    · show ((qpSoftBreak st).line ++ _).length ≤ 75
      rw [h1.hline]
      simp [tokConcat]
    · rw [tokConcat_append, tokConcat_append, tokConcat_append]
      simp [tokConcat, tokDec]
    · rw [tokConcat_append, tokConcat_append, tokConcat_append]
      simp [tokConcat, tokDecLF]
  · rw [if_neg hsp]
    have hlen : st.line.length ≤ 72 := by
      have := h.hlen
      omega
    refine ⟨To, Tl ++ [QPTok.esc b], ⟨?_, ?_, ?_, ?_, ?_, ?_⟩, ?_, ?_⟩
    · exact h.hout
    · show st.line ++ [61, upperhex (b / 16), upperhex (b % 16)] = _
      rw [h.hline, tokConcat_append]
      simp [tokConcat, tokBytes]
    · exact h.hToOK
    · intro t ht
      rcases List.mem_append.mp ht with h1 | h2
      · exact h.hTlOK t h1
      · obtain rfl := mem_single h2
        exact hb
    · intro t ht
      rcases List.mem_append.mp ht with h1 | h2
      · exact h.hTlLine t h1
      · obtain rfl := mem_single h2
        trivial
    · show (st.line ++ _).length ≤ 75
      simp only [List.length_append, List.length_cons, List.length_nil]
      omega
    · rw [← List.append_assoc, tokConcat_append, tokConcat_append]
      simp [tokConcat, tokDec]
    · rw [← List.append_assoc, tokConcat_append, tokConcat_append]
      simp [tokConcat, tokDecLF]

theorem tokBytes_ne_nil (t : QPTok) : tokBytes t ≠ [] := by
  cases t <;> simp [tokBytes]

theorem line_split_last {Tl : List QPTok} {b : Nat}
    (hOK : ∀ t ∈ Tl, tokOK t) (hLine : ∀ t ∈ Tl, tokLine t)
    (hlast : (tokConcat tokBytes Tl).getLast? = some b) (hws : b = 32 ∨ b = 9) :
    ∃ Tl₀, Tl = Tl₀ ++ [QPTok.lit b] := by
  rcases List.eq_nil_or_concat Tl with rfl | ⟨T₀, t, rfl⟩
  · rw [tokConcat_nil] at hlast
    cases hlast
  · rw [List.concat_eq_append] at hOK hLine hlast ⊢
    rw [tokConcat_append] at hlast
    have hne : tokConcat tokBytes [t] ≠ [] := by
      have := tokBytes_ne_nil t
      simpa [tokConcat] using this
    rw [List.getLast?_append_of_ne_nil _ hne] at hlast
    cases t with
    | lit x =>
      have hx : x = b := by
        simp [tokConcat, tokBytes] at hlast
        exact hlast
      subst hx
      exact ⟨T₀, rfl⟩
    | esc x =>
      exfalso
      have hx : upperhex (x % 16) = b := by
        simp [tokConcat, tokBytes] at hlast
        exact hlast
      have := upperhex_ge (x % 16)
      omega
    | soft => exact (hLine QPTok.soft (by simp)).elim
    | hard => exact (hLine QPTok.hard (by simp)).elim

theorem rep_checkLast {st : QPState} {To Tl : List QPTok} (h : QPRep st To Tl) :
    ∃ To2 Tl2, QPRep (qpCheckLast st) To2 Tl2 ∧
      tokConcat tokDec (To2 ++ Tl2) = tokConcat tokDec (To ++ Tl) ∧
      tokConcat tokDecLF (To2 ++ Tl2) = tokConcat tokDecLF (To ++ Tl) := by
  unfold qpCheckLast
  cases hgl : st.line.getLast? with
  | none => exact ⟨To, Tl, h, rfl, rfl⟩
  | some b =>
    show ∃ To2 Tl2, QPRep (if b = 32 ∨ b = 9 then
        qpEncByte b { st with line := st.line.dropLast } else st) To2 Tl2 ∧ _ ∧ _
    by_cases hws : b = 32 ∨ b = 9
    · rw [if_pos hws]
      have hlast : (tokConcat tokBytes Tl).getLast? = some b := by
        rw [← h.hline]; exact hgl
      obtain ⟨Tl₀, rfl⟩ := line_split_last h.hTlOK h.hTlLine hlast hws
      have hdrop : st.line.dropLast = tokConcat tokBytes Tl₀ := by
        rw [h.hline, tokConcat_append]
        simp [tokConcat, tokBytes]
      have h2 : QPRep { st with line := st.line.dropLast } To Tl₀ := by
        refine ⟨h.hout, hdrop, h.hToOK, ?_, ?_, ?_⟩
        · intro t ht; exact h.hTlOK t (by simp [ht])
        · intro t ht; exact h.hTlLine t (by simp [ht])
        · show st.line.dropLast.length ≤ 75
          have := h.hlen
          rw [List.length_dropLast]
          omega
      obtain ⟨To2, Tl2, h3, hd, hdlf⟩ :=
        rep_encByte h2 b (by rcases hws with rfl | rfl <;> omega)
      refine ⟨To2, Tl2, h3, ?_, ?_⟩
      · rw [hd]
        rw [← List.append_assoc, tokConcat_append, tokConcat_append, tokConcat_append]
        simp [tokConcat, tokDec]
      · rw [hdlf]
        rw [← List.append_assoc, tokConcat_append, tokConcat_append, tokConcat_append]
        simp [tokConcat, tokDecLF]
    · rw [if_neg hws]
      exact ⟨To, Tl, h, rfl, rfl⟩

theorem rep_hard {st : QPState} {To Tl : List QPTok} (h : QPRep st To Tl) :
    ∃ To2 Tl2, QPRep (qpInsertCRLF (qpCheckLast st)) To2 Tl2 ∧
      tokConcat tokDec (To2 ++ Tl2) = tokConcat tokDec (To ++ Tl) ++ [13, 10] ∧
      tokConcat tokDecLF (To2 ++ Tl2) = tokConcat tokDecLF (To ++ Tl) ++ [10] := by
  obtain ⟨To2, Tl2, h2, hd, hdlf⟩ := rep_checkLast h
  refine ⟨To2 ++ Tl2 ++ [QPTok.hard], [], rep_insertCRLF h2, ?_, ?_⟩
  · rw [List.append_nil, tokConcat_append, tokConcat_append]
    rw [← tokConcat_append, hd]
    simp [tokConcat, tokDec]
  · rw [List.append_nil, tokConcat_append, tokConcat_append]
    rw [← tokConcat_append, hdlf]
    simp [tokConcat, tokDecLF]

theorem rep_writePlain {st : QPState} {To Tl : List QPTok} (h : QPRep st To Tl)
    {b : Nat} (hOK : tokOK (QPTok.lit b)) (h10 : b ≠ 10) (h13 : b ≠ 13) :
    ∃ To2 Tl2, QPRep (qpWriteByte b st) To2 Tl2 ∧
      (qpWriteByte b st).cr = false ∧
      tokConcat tokDec (To2 ++ Tl2) = tokConcat tokDec (To ++ Tl) ++ [b] ∧
      tokConcat tokDecLF (To2 ++ Tl2) = tokConcat tokDecLF (To ++ Tl) ++ [b] := by
  unfold qpWriteByte
  rw [if_neg (by rintro (hc | hc) <;> [exact h10 hc; exact h13 hc])]
  by_cases hlen : st.line.length = 75
  · rw [if_pos hlen]
    have h1 := rep_softBreak h
    refine ⟨To ++ Tl ++ [QPTok.soft], [QPTok.lit b],
      ⟨?_, ?_, ?_, ?_, ?_, ?_⟩, rfl, ?_, ?_⟩
    · show (qpSoftBreak st).out = _
      exact h1.hout
    · show (qpSoftBreak st).line ++ [b] = _
      rw [h1.hline]
      simp [tokConcat, tokBytes]
    · exact h1.hToOK
    · intro t ht
      obtain rfl := mem_single ht
      exact hOK
    · intro t ht
      obtain rfl := mem_single ht
      trivial
    · show ((qpSoftBreak st).line ++ _).length ≤ 75
      rw [h1.hline]
      simp [tokConcat]
    · rw [tokConcat_append, tokConcat_append, tokConcat_append]
      simp [tokConcat, tokDec]
    · rw [tokConcat_append, tokConcat_append, tokConcat_append]
      simp [tokConcat, tokDecLF]
  · rw [if_neg hlen]
    refine ⟨To, Tl ++ [QPTok.lit b], ⟨?_, ?_, ?_, ?_, ?_, ?_⟩, rfl, ?_, ?_⟩
    · exact h.hout
    · show st.line ++ [b] = _
      rw [h.hline, tokConcat_append]
      simp [tokConcat, tokBytes]
    · exact h.hToOK
    · intro t ht
      rcases List.mem_append.mp ht with h1 | h2
      · exact h.hTlOK t h1
      · obtain rfl := mem_single h2
        exact hOK
    · intro t ht
      rcases List.mem_append.mp ht with h1 | h2
      · exact h.hTlLine t h1
      · obtain rfl := mem_single h2
        trivial
    · show (st.line ++ [b]).length ≤ 75
      have := h.hlen
      simp only [List.length_append, List.length_cons, List.length_nil]
      omega
    · rw [← List.append_assoc, tokConcat_append, tokConcat_append]
      simp [tokConcat, tokDec]
    · rw [← List.append_assoc, tokConcat_append, tokConcat_append]
      simp [tokConcat, tokDecLF]

theorem qpStep_13 (st : QPState) :
    qpStep st 13 = qpInsertCRLF (qpCheckLast { st with cr := true }) := by
  unfold qpStep
  rw [if_pos (show qpSimple 13 by unfold qpSimple; omega)]
  unfold qpWriteByte
  rw [if_pos (Or.inr rfl)]
  rw [if_neg (by rintro ⟨_, hc⟩; exact absurd hc (by omega))]
  rw [if_pos rfl]

theorem qpStep_10_skip (st : QPState) (hcr : st.cr = true) :
    qpStep st 10 = { st with cr := false } := by
  unfold qpStep
  rw [if_pos (show qpSimple 10 by unfold qpSimple; omega)]
  unfold qpWriteByte
  rw [if_pos (Or.inl rfl)]
  rw [if_pos ⟨hcr, rfl⟩]

theorem qpStep_10 (st : QPState) (hcr : st.cr = false) :
    qpStep st 10 = qpInsertCRLF (qpCheckLast st) := by
  unfold qpStep
  rw [if_pos (show qpSimple 10 by unfold qpSimple; omega)]
  unfold qpWriteByte
  rw [if_pos (Or.inl rfl)]
  rw [if_neg (by rintro ⟨hc, _⟩; rw [hcr] at hc; exact absurd hc (by simp))]
  rw [if_neg (by omega)]

theorem qpStep_plain (st : QPState) (b : Nat) (hs : qpSimple b) :
    qpStep st b = qpWriteByte b st := by
  unfold qpStep
  rw [if_pos hs]

theorem qpStep_esc (st : QPState) (b : Nat) (hs : ¬qpSimple b) :
    qpStep st b = qpEncByte b st := by
  unfold qpStep
  rw [if_neg hs]

/-- Safety of a byte string for the CRLF output mode: CR and LF occur only
as CRLF pairs.  The flag records a pending CR awaiting its LF. -/
def crlfOnlyAux : Bool → List Nat → Bool
  | false, [] => true
  | true, [] => false
  | true, b :: r => if b = 10 then crlfOnlyAux false r else false
  | false, b :: r =>
    if b = 13 then crlfOnlyAux true r
    else if b = 10 then false
    else crlfOnlyAux false r

/-- CR and LF occur in `c` only as CRLF pairs. -/
def crlfOnly (c : List Nat) : Bool := crlfOnlyAux false c

theorem crlfOnlyAux_nil {flag : Bool} (h : crlfOnlyAux flag [] = true) :
    flag = false := by
  cases flag
  · rfl
  · simp [crlfOnlyAux] at h

theorem rep_same_cr {st : QPState} {To Tl : List QPTok} (h : QPRep st To Tl)
    (c : Bool) : QPRep { st with cr := c } To Tl :=
  ⟨h.hout, h.hline, h.hToOK, h.hTlOK, h.hTlLine, h.hlen⟩

theorem qpRun_crlf :
    ∀ (n : Nat) (c : List Nat) (st : QPState) (To Tl : List QPTok) (flag : Bool),
      c.length ≤ n → QPRep st To Tl → st.cr = flag →
      (∀ b ∈ c, b < 256) → crlfOnlyAux flag c = true →
      ∃ To2 Tl2, QPRep (c.foldl qpStep st) To2 Tl2 ∧
        (c.foldl qpStep st).cr = false ∧
        tokConcat tokDec (To2 ++ Tl2) =
          tokConcat tokDec (To ++ Tl) ++
            (if flag = true then c.drop 1 else c) := by
  intro n
  induction n with
  | zero =>
    intro c st To Tl flag hn h hcr h256 hsafe
    have hnil : c = [] := List.eq_nil_of_length_eq_zero (by omega)
    subst hnil
    obtain rfl := crlfOnlyAux_nil hsafe
    exact ⟨To, Tl, h, hcr, by simp⟩
  | succ n ih =>
    intro c st To Tl flag hn h hcr h256 hsafe
    match c with
    | [] =>
      obtain rfl := crlfOnlyAux_nil hsafe
      exact ⟨To, Tl, h, hcr, by simp⟩
    | b :: r =>
      rw [List.foldl_cons]
      cases flag with
      | true =>
        by_cases hb : b = 10
        · subst hb
          rw [qpStep_10_skip st hcr]
          have hsafe' : crlfOnlyAux false r = true := by
            simpa [crlfOnlyAux] using hsafe
          obtain ⟨To2, Tl2, h2, hcr2, hd⟩ :=
            ih r { st with cr := false } To Tl false
              (by simp only [List.length_cons] at hn; omega)
              (rep_same_cr h false) rfl
              (fun x hx => h256 x (by simp [hx])) hsafe'
          refine ⟨To2, Tl2, h2, hcr2, ?_⟩
          rw [hd]
          simp
        · exfalso
          simp only [crlfOnlyAux] at hsafe
          rw [if_neg hb] at hsafe
          exact absurd hsafe (by simp)
      | false =>
        by_cases hb13 : b = 13
        · subst hb13
          have hsafe' : crlfOnlyAux true r = true := by
            simpa [crlfOnlyAux] using hsafe
          rw [qpStep_13]
          obtain ⟨To2, Tl2, h2, hd, hdlf⟩ := rep_hard (rep_same_cr h true)
          have hcr2 : (qpInsertCRLF (qpCheckLast { st with cr := true })).cr = true := by
            rw [qpInsertCRLF_cr, qpCheckLast_cr]
          cases r with
          | nil => simp [crlfOnlyAux] at hsafe'
          | cons x r2 =>
            by_cases hx : x = 10
            · subst hx
              obtain ⟨To3, Tl3, h3, hcr3, hd3⟩ :=
                ih (10 :: r2) _ To2 Tl2 true
                  (by simp only [List.length_cons] at hn ⊢; omega)
                  h2 hcr2
                  (fun y hy => h256 y (by simp at hy ⊢; tauto)) hsafe'
              refine ⟨To3, Tl3, h3, hcr3, ?_⟩
              rw [hd3, hd]
              simp
            · exfalso
              simp only [crlfOnlyAux] at hsafe'
              rw [if_neg hx] at hsafe'
              exact absurd hsafe' (by simp)
        · by_cases hb10 : b = 10
          · exfalso
            subst hb10
            simp [crlfOnlyAux] at hsafe
          · have hsafe' : crlfOnlyAux false r = true := by
              simp only [crlfOnlyAux] at hsafe
              rw [if_neg hb13, if_neg hb10] at hsafe
              exact hsafe
            have hb256 : b < 256 := h256 b (by simp)
            by_cases hs : qpSimple b
            · rw [qpStep_plain st b hs]
              have hOK : tokOK (QPTok.lit b) := by
                show (33 ≤ b ∧ b ≤ 126 ∧ b ≠ 61) ∨ b = 32 ∨ b = 9
                unfold qpSimple at hs
                omega
              obtain ⟨To2, Tl2, h2, hcr2, hd, _⟩ := rep_writePlain h hOK hb10 hb13
              obtain ⟨To3, Tl3, h3, hcr3, hd3⟩ :=
                ih r _ To2 Tl2 false
                  (by simp only [List.length_cons] at hn; omega)
                  h2 hcr2 (fun x hx => h256 x (by simp [hx])) hsafe'
              refine ⟨To3, Tl3, h3, hcr3, ?_⟩
              rw [hd3, hd]
              simp
            · rw [qpStep_esc st b hs]
              obtain ⟨To2, Tl2, h2, hd, _⟩ := rep_encByte h b hb256
              have hcr2 : (qpEncByte b st).cr = false := by
                rw [qpEncByte_cr, hcr]
              obtain ⟨To3, Tl3, h3, hcr3, hd3⟩ :=
                ih r _ To2 Tl2 false
                  (by simp only [List.length_cons] at hn; omega)
                  h2 hcr2 (fun x hx => h256 x (by simp [hx])) hsafe'
              refine ⟨To3, Tl3, h3, hcr3, ?_⟩
              rw [hd3, hd]
              simp

theorem qpRun_lf :
    ∀ (n : Nat) (c : List Nat) (st : QPState) (To Tl : List QPTok),
      c.length ≤ n → QPRep st To Tl → st.cr = false →
      (∀ b ∈ c, b < 256) → (∀ b ∈ c, b ≠ 13) →
      ∃ To2 Tl2, QPRep (c.foldl qpStep st) To2 Tl2 ∧
        (c.foldl qpStep st).cr = false ∧
        tokConcat tokDecLF (To2 ++ Tl2) = tokConcat tokDecLF (To ++ Tl) ++ c := by
  intro n
  induction n with
  | zero =>
    intro c st To Tl hn h hcr h256 hnc
    have hnil : c = [] := List.eq_nil_of_length_eq_zero (by omega)
    subst hnil
    exact ⟨To, Tl, h, hcr, by simp⟩
  | succ n ih =>
    intro c st To Tl hn h hcr h256 hnc
    match c with
    | [] => exact ⟨To, Tl, h, hcr, by simp⟩
    | b :: r =>
      rw [List.foldl_cons]
      have hb13 : b ≠ 13 := hnc b (by simp)
      by_cases hb10 : b = 10
      · subst hb10
        rw [qpStep_10 st hcr]
        obtain ⟨To2, Tl2, h2, hd, hdlf⟩ := rep_hard h
        have hcr2 : (qpInsertCRLF (qpCheckLast st)).cr = false := by
          rw [qpInsertCRLF_cr, qpCheckLast_cr, hcr]
        obtain ⟨To3, Tl3, h3, hcr3, hd3⟩ :=
          ih r _ To2 Tl2
            (by simp only [List.length_cons] at hn; omega)
            h2 hcr2 (fun x hx => h256 x (by simp [hx]))
            (fun x hx => hnc x (by simp [hx]))
        refine ⟨To3, Tl3, h3, hcr3, ?_⟩
        rw [hd3, hdlf]
        simp
      · have hb256 : b < 256 := h256 b (by simp)
        by_cases hs : qpSimple b
        · rw [qpStep_plain st b hs]
          have hOK : tokOK (QPTok.lit b) := by
            show (33 ≤ b ∧ b ≤ 126 ∧ b ≠ 61) ∨ b = 32 ∨ b = 9
            unfold qpSimple at hs
            omega
          obtain ⟨To2, Tl2, h2, hcr2, _, hdlf⟩ := rep_writePlain h hOK hb10 hb13
          obtain ⟨To3, Tl3, h3, hcr3, hd3⟩ :=
            ih r _ To2 Tl2
              (by simp only [List.length_cons] at hn; omega)
              h2 hcr2 (fun x hx => h256 x (by simp [hx]))
              (fun x hx => hnc x (by simp [hx]))
          refine ⟨To3, Tl3, h3, hcr3, ?_⟩
          rw [hd3, hdlf]
          simp
        · rw [qpStep_esc st b hs]
          obtain ⟨To2, Tl2, h2, _, hdlf⟩ := rep_encByte h b hb256
          have hcr2 : (qpEncByte b st).cr = false := by
            rw [qpEncByte_cr, hcr]
          obtain ⟨To3, Tl3, h3, hcr3, hd3⟩ :=
            ih r _ To2 Tl2
              (by simp only [List.length_cons] at hn; omega)
              h2 hcr2 (fun x hx => h256 x (by simp [hx]))
              (fun x hx => hnc x (by simp [hx]))
          refine ⟨To3, Tl3, h3, hcr3, ?_⟩
          rw [hd3, hdlf]
          simp

theorem rep_init : QPRep qpInit [] [] := by
  refine ⟨rfl, rfl, ?_, ?_, ?_, ?_⟩
  · intro t ht; cases ht
  · intro t ht; cases ht
  · intro t ht; cases ht
  · show (List.length ([] : List Nat)) ≤ 75
    simp

/-- Round trip of the quoted-printable writer in CRLF mode: if the input
contains CR and LF only as CRLF pairs, decoding the emitted bytes yields
the input back. -/
theorem qpEncode_decode_crlf (c : List Nat) (h256 : ∀ b ∈ c, b < 256)
    (hsafe : crlfOnly c = true) : qpDecode (qpEncode c) = c := by
  obtain ⟨To2, Tl2, h2, _, hd⟩ :=
    qpRun_crlf c.length c qpInit [] [] false (le_refl _) rep_init rfl h256 hsafe
  obtain ⟨To3, Tl3, h3, hd3, _⟩ := rep_checkLast h2
  have h4 := rep_flush h3
  unfold qpEncode
  rw [h4.hout]
  rw [qpDecode_tokens _ (fun t ht => by
    rcases List.mem_append.mp ht with h5 | h6
    exacts [h3.hToOK t h5, h3.hTlOK t h6])]
  rw [hd3, hd]
  simp [tokConcat]

/-- Round trip of the quoted-printable writer in LF-only mode: if the input
contains no CR byte, decoding the CRLF→LF-normalized emission yields the
input back. -/
theorem qpEncode_decode_lf (c : List Nat) (h256 : ∀ b ∈ c, b < 256)
    (hnc : ∀ b ∈ c, b ≠ 13) : qpDecode (replaceCrlf (qpEncode c)) = c := by
  obtain ⟨To2, Tl2, h2, _, hd⟩ :=
    qpRun_lf c.length c qpInit [] [] (le_refl _) rep_init rfl h256 hnc
  obtain ⟨To3, Tl3, h3, _, hd3⟩ := rep_checkLast h2
  have h4 := rep_flush h3
  have hOKall : ∀ t ∈ To3 ++ Tl3, tokOK t := fun t ht => by
    rcases List.mem_append.mp ht with h5 | h6
    exacts [h3.hToOK t h5, h3.hTlOK t h6]
  unfold qpEncode
  rw [h4.hout]
  rw [replaceCrlf_tokens _ hOKall]
  rw [qpDecode_tokensLF _ hOKall]
  rw [hd3, hd]
  simp [tokConcat]

/-! ## The Part data model and encodeContent -/

/-- Modelled from the spec (§3): the scalar fields of a `Part` used by the
encoder.  `header` maps a field name to its list of values (byte strings).
`contentReader` models a streaming content source as the list of byte
segments that successive `Read` calls deliver (end of the list is
end-of-stream); `none` models a nil `ContentReader`.  `parserRaw` is
`some b` when the part carries a parser whose `rawContent` flag is `b`,
and `none` when `p.parser == nil`.  `textual` is the caller's
classification `p.TextContent()` (spec §4.2: "textual (caller-classified)").
`fileModDate` is `some s` when `p.FileModDate` is non-zero, with `s` its
RFC 822 rendering.  `randTok` models the random token drawn from
`p.randSource` by the boundary generator. -/
structure PartData where
  header : List (List Nat × List (List Nat))
  content : List Nat
  contentReader : Option (List (List Nat))
  contentType : List Nat
  contentTypeParams : List (List Nat × List Nat)
  charset : List Nat
  disposition : List Nat
  fileName : List Nat
  fileModDate : Option (List Nat)
  contentID : List Nat
  boundary : List Nat
  parserRaw : Option Bool
  textual : Bool
  randTok : List Nat
deriving Repr, DecidableEq

/-- A part with every field empty. -/
def emptyPart : PartData :=
  { header := [], content := [], contentReader := none, contentType := [],
    contentTypeParams := [], charset := [], disposition := [], fileName := [],
    fileModDate := none, contentID := [], boundary := [], parserRaw := none,
    textual := false, randTok := [] }

/-- Constants from encode.go: `base64DecodedLineLen = 76*3/4 = 57` and
`readChunkSize = 57 * 128`. -/
def base64DecodedLineLen : Nat := 57

def readChunkSize : Nat := base64DecodedLineLen * 128

/-- One `Read` call of a reader delivering the byte segments `segs` into a
buffer with `free` bytes of space: at most one segment is consumed, split
if it exceeds the buffer. -/
def readOnce (free : Nat) (segs : List (List Nat)) :
    List Nat × List (List Nat) :=
  match segs with
  | [] => ([], [])
  | seg :: rest =>
    if seg.length ≤ free then (seg, rest)
    else (seg.take free, seg.drop free :: rest)

/-- The inner read loop of `encodeContentFromReader` (encode.go lines
330-340): call `Read` until the chunk is full or the source is exhausted.
Returns the bytes read and the remaining reader state. -/
def fillLoop (free : Nat) : List (List Nat) → List Nat × List (List Nat)
  | [] => ([], [])
  | seg :: rest =>
    if free = 0 then ([], seg :: rest)
    else if seg.length ≤ free then
      let r := fillLoop (free - seg.length) rest
      (seg ++ r.1, r.2)
    else (seg.take free, seg.drop free :: rest)

/-- The per-chunk encode loop of `encodeContentFromReader` (encode.go lines
342-361): encode 57-byte slices of the chunk, each emitted as one base64
line followed by the line terminator. -/
def chunkLines (eol : List Nat) : List Nat → List Nat
  | [] => []
  | b :: t =>
    base64Encode ((b :: t).take 57) ++ eol ++ chunkLines eol ((b :: t).drop 57)
termination_by t => t.length + 1
decreasing_by simp [List.length_drop]; omega

/-- Total number of bytes a reader still holds. -/
def totalLen (segs : List (List Nat)) : Nat := (segs.map List.length).sum

theorem fillLoop_le :
    ∀ (segs : List (List Nat)) (free : Nat),
      (fillLoop free segs).1.length ≤ free := by
  intro segs
  induction segs with
  | nil =>
    intro free
    simp [fillLoop]
  | cons seg rest ih =>
    intro free
    rw [fillLoop]
    by_cases h0 : free = 0
    · rw [if_pos h0]
      simp [h0]
    · rw [if_neg h0]
      by_cases h1 : seg.length ≤ free
      · rw [if_pos h1]
        simp only [List.length_append]
        have := ih (free - seg.length)
        omega
      · rw [if_neg h1]
        simp only [List.length_take]
        omega

theorem fillLoop_join :
    ∀ (segs : List (List Nat)) (free : Nat),
      (fillLoop free segs).1 ++ (fillLoop free segs).2.flatten = segs.flatten := by
  intro segs
  induction segs with
  | nil =>
    intro free
    simp [fillLoop]
  | cons seg rest ih =>
    intro free
    rw [fillLoop]
    by_cases h0 : free = 0
    · rw [if_pos h0]
      simp
    · rw [if_neg h0]
      by_cases h1 : seg.length ≤ free
      · rw [if_pos h1]
        simp only [List.flatten_cons, List.append_assoc]
        rw [ih (free - seg.length)]
      · rw [if_neg h1]
        simp only [List.flatten_cons]
        rw [← List.append_assoc, List.take_append_drop]

theorem fillLoop_short :
    ∀ (segs : List (List Nat)) (free : Nat),
      (fillLoop free segs).1.length < free →
      (fillLoop free segs).2.flatten = [] := by
  intro segs
  induction segs with
  | nil =>
    intro free _
    simp [fillLoop]
  | cons seg rest ih =>
    intro free hlt
    rw [fillLoop] at hlt ⊢
    by_cases h0 : free = 0
    · rw [if_pos h0] at hlt
      simp at hlt
      omega
    · rw [if_neg h0] at hlt ⊢
      by_cases h1 : seg.length ≤ free
      · rw [if_pos h1] at hlt ⊢
        simp only [List.length_append] at hlt
        exact ih (free - seg.length) (by omega)
      · rw [if_neg h1] at hlt ⊢
        simp only [List.length_take] at hlt
        omega

theorem fillLoop_segs_le :
    ∀ (segs : List (List Nat)) (free : Nat),
      (fillLoop free segs).2.length ≤ segs.length := by
  intro segs
  induction segs with
  | nil =>
    intro free
    simp [fillLoop]
  | cons seg rest ih =>
    intro free
    rw [fillLoop]
    by_cases h0 : free = 0
    · rw [if_pos h0]
    · rw [if_neg h0]
      by_cases h1 : seg.length ≤ free
      · rw [if_pos h1]
        have := ih (free - seg.length)
        simp only [List.length_cons]
        omega
      · rw [if_neg h1]
        simp

theorem fillLoop_total :
    ∀ (segs : List (List Nat)) (free : Nat),
      (fillLoop free segs).1.length + totalLen (fillLoop free segs).2 =
        totalLen segs := by
  intro segs
  induction segs with
  | nil =>
    intro free
    simp [fillLoop, totalLen]
  | cons seg rest ih =>
    intro free
    rw [fillLoop]
    by_cases h0 : free = 0
    · rw [if_pos h0]
      simp
    · rw [if_neg h0]
      by_cases h1 : seg.length ≤ free
      · rw [if_pos h1]
        have := ih (free - seg.length)
        simp only [List.length_append, totalLen, List.map_cons, List.sum_cons] at *
        omega
      · rw [if_neg h1]
        simp only [List.length_take, totalLen, List.map_cons, List.sum_cons,
          List.length_drop]
        omega

/-- The outer loop of `encodeContentFromReader` (encode.go lines 328-368):
fill the chunk (whose first `init.length` bytes were already supplied),
emit its base64 lines, and continue while the chunk was filled
completely. -/
def streamLoop (eol : List Nat) (init : List Nat)
    (segs : List (List Nat)) : List Nat :=
  chunkLines eol (init ++ (fillLoop (readChunkSize - init.length) segs).1) ++
    (if hfull : (init ++ (fillLoop (readChunkSize - init.length) segs).1).length <
        readChunkSize
     then []
     else streamLoop eol [] (fillLoop (readChunkSize - init.length) segs).2)
termination_by init.length + totalLen segs + segs.length
decreasing_by
  have h1 := fillLoop_le segs (readChunkSize - init.length)
  have h2 := fillLoop_total segs (readChunkSize - init.length)
  have h3 := fillLoop_segs_le segs (readChunkSize - init.length)
  have hpos : 0 < readChunkSize := by
    norm_num [readChunkSize, base64DecodedLineLen]
  simp only [List.length_append, not_lt] at hfull
  simp only [List.length_nil]
  omega

/-- `encodeContentFromReader` (encode.go lines 320-371): the chunk is
pre-filled with the probe bytes already read into `p.Content` (at most one
chunk, guaranteed by the probe's buffer size), then the reader is drained
chunk by chunk. -/
def encodeContentFromReader (content : List Nat) (segs : List (List Nat))
    (useLF : Bool) : List Nat :=
  streamLoop (eolOf useLF) content segs

/-- `encodeContent` (encode.go lines 256-317): dispatch to the streaming
path when a content reader is present; otherwise override the transfer
encoding to raw for raw-content parser parts, and emit wrapped base64,
quoted-printable (with CRLF→LF normalization in LF mode), or the bytes
unmodified. -/
def encodeContent (d : PartData) (cte : TransferEncoding) (useLF : Bool) :
    List Nat :=
  match d.contentReader with
  | some segs => encodeContentFromReader d.content segs useLF
  | none =>
    match (if d.parserRaw = some true then TeRaw else cte) with
    | TeBase64 => wrapLines (eolOf useLF) (base64Encode d.content)
    | TeQuoted =>
        if useLF then replaceCrlf (qpEncode d.content) else qpEncode d.content
    | _ => d.content

/-- The streaming path exactly as the claim describes it: the probe read
issued by `EncodeCustom` (a single `Read` into a chunk-sized buffer),
followed by `encodeContentFromReader` over the rest of the reader. -/
def streamEncode (segs : List (List Nat)) (useLF : Bool) : List Nat :=
  encodeContentFromReader (readOnce readChunkSize segs).1
    (readOnce readChunkSize segs).2 useLF

/-- Safety condition under which the quoted-printable round trip holds:
in CRLF mode, CR and LF bytes occur only as CRLF pairs; in LF-only mode,
no CR byte occurs. -/
def qpRoundSafe (useLF : Bool) (c : List Nat) : Prop :=
  if useLF then (∀ b ∈ c, b ≠ 13) else crlfOnly c = true

instance (useLF : Bool) (c : List Nat) : Decidable (qpRoundSafe useLF c) := by
  unfold qpRoundSafe
  cases useLF <;> simp <;> infer_instance

/-- C3, counterexample: for the one-byte content CR (0x0D), the
quoted-printable writer (text mode) normalizes the lone CR to CRLF, so the
emitted body decodes to CR LF, not to the original content. -/
theorem C3_counterexample :
    encodeContent { emptyPart with content := [13] } TeQuoted false = [13, 10] ∧
      qpDecode [13, 10] = [13, 10] ∧ [13, 10] ≠ [13] := by
  refine ⟨rfl, ?_, by simp⟩
  rw [qpDecode_cons_ne _ (by omega), qpDecode_cons_ne _ (by omega), qpDecode_nil]

/-- C3, amended: decoding the body emitted by `encodeContent` with
`TeBase64` recovers the content exactly, for every byte sequence in both
line-ending modes; decoding the body emitted with `TeQuoted` recovers the
content exactly provided line breaks occur only in the output mode's form
(CRLF pairs in CRLF mode, bare LF with no CR in LF-only mode) — bare CR
(and any line break in the opposite convention) is normalized by the
text-mode quoted-printable writer and is not recovered. -/
theorem C3_amended (c : List Nat) (useLF : Bool) (h256 : ∀ b ∈ c, b < 256) :
    decodeBase64Body
        (encodeContent { emptyPart with content := c } TeBase64 useLF) =
      some c ∧
    (qpRoundSafe useLF c →
      qpDecode (encodeContent { emptyPart with content := c } TeQuoted useLF) =
        c) := by
  constructor
  · show decodeBase64Body (wrapLines (eolOf useLF) (base64Encode c)) = some c
    exact decodeBase64Body_wrapLines useLF c h256
  · intro hsafe
    cases useLF with
    | true =>
      show qpDecode (replaceCrlf (qpEncode c)) = c
      exact qpEncode_decode_lf c h256 (by simpa [qpRoundSafe] using hsafe)
    | false =>
      show qpDecode (qpEncode c) = c
      exact qpEncode_decode_crlf c h256 (by simpa [qpRoundSafe] using hsafe)

/-- C3 witness. -/
theorem C3_witness :
    (∀ b ∈ [72, 0, 255, 13, 10, 61], b < 256) ∧
    (decodeBase64Body
        (encodeContent { emptyPart with content := [72, 0, 255, 13, 10, 61] }
          TeBase64 false) = some [72, 0, 255, 13, 10, 61] ∧
      (qpRoundSafe false [72, 0, 255, 13, 10, 61] →
        qpDecode (encodeContent { emptyPart with content := [72, 0, 255, 13, 10, 61] }
          TeQuoted false) = [72, 0, 255, 13, 10, 61])) :=
  ⟨by decide, C3_amended [72, 0, 255, 13, 10, 61] false (by decide)⟩

theorem base64Encode_length :
    ∀ a : List Nat, (base64Encode a).length = (a.length + 2) / 3 * 4
  | [] => rfl
  | [_] => by simp [base64Encode]
  | [_, _] => by simp [base64Encode]
  | a :: b :: c :: rest => by
    have ih := base64Encode_length rest
    simp only [base64Encode, List.length_cons]
    rw [ih]
    omega

theorem base64Encode_append :
    ∀ a b : List Nat, a.length % 3 = 0 →
      base64Encode (a ++ b) = base64Encode a ++ base64Encode b
  | [], b, _ => by simp [base64Encode]
  | [_], _, h => by simp at h
  | [_, _], _, h => by simp at h
  | x :: y :: z :: rest, b, h => by
    have ih := base64Encode_append rest b
      (by simp only [List.length_cons] at h; omega)
    simp only [List.cons_append]
    simp [base64Encode, ih, List.append_eq]

theorem wrapLines_nil (eol : List Nat) : wrapLines eol [] = [] := by
  rw [wrapLines]

theorem wrapLines_eq (eol : List Nat) (l : List Nat) (h : l ≠ []) :
    wrapLines eol l = l.take 76 ++ eol ++ wrapLines eol (l.drop 76) := by
  match l with
  | [] => exact absurd rfl h
  | x :: t => rw [wrapLines]

theorem chunkLines_nil (eol : List Nat) : chunkLines eol [] = [] := by
  rw [chunkLines]

theorem chunkLines_eq (eol : List Nat) (l : List Nat) (h : l ≠ []) :
    chunkLines eol l =
      base64Encode (l.take 57) ++ eol ++ chunkLines eol (l.drop 57) := by
  match l with
  | [] => exact absurd rfl h
  | x :: t => rw [chunkLines]

/-- A string of exactly 76 bytes wraps to a single terminated line. -/
theorem wrapLines_exact (eol : List Nat) (l : List Nat) (h : l.length = 76) :
    wrapLines eol l = l ++ eol := by
  rw [wrapLines_eq eol l (by intro hcon; subst hcon; simp at h)]
  rw [List.take_of_length_le (by omega)]
  have hd : l.drop 76 = [] := by
    rw [List.drop_eq_nil_iff]
    omega
  rw [hd, wrapLines_nil]
  simp

theorem wrapLines_append76 (eol : List Nat) :
    ∀ (n : Nat) (a b : List Nat), a.length ≤ n → a.length % 76 = 0 →
      wrapLines eol (a ++ b) = wrapLines eol a ++ wrapLines eol b := by
  intro n
  induction n with
  | zero =>
    intro a b ha _
    have hnil : a = [] := List.eq_nil_of_length_eq_zero (by omega)
    subst hnil
    simp [wrapLines_nil]
  | succ n ih =>
    intro a b ha hmod
    match a with
    | [] => simp [wrapLines_nil]
    | x :: t =>
      have h76 : 76 ≤ (x :: t).length := by
        by_cases hz : (x :: t).length = 0
        · simp at hz
        · rcases Nat.lt_or_ge (x :: t).length 76 with hlt | hge
          · omega
          · exact hge
      by_cases hb : b = []
      · subst hb
        simp [wrapLines_nil]
      · rw [wrapLines_eq eol _ (by simp)]
        rw [wrapLines_eq eol (x :: t) (by simp)]
        rw [List.take_append_of_le_length (by omega),
          List.drop_append_of_le_length (by omega)]
        rw [ih ((x :: t).drop 76) b
          (by
            simp only [List.length_drop]
            simp only [List.length_cons] at ha ⊢
            omega)
          (by simp only [List.length_drop]; omega)]
        simp [List.append_assoc]

theorem chunkLines_eq_wrapLines (eol : List Nat) :
    ∀ (n : Nat) (c : List Nat), c.length ≤ n →
      chunkLines eol c = wrapLines eol (base64Encode c) := by
  intro n
  induction n with
  | zero =>
    intro c hc
    have hnil : c = [] := List.eq_nil_of_length_eq_zero (by omega)
    subst hnil
    simp [chunkLines_nil, base64Encode, wrapLines_nil]
  | succ n ih =>
    intro c hc
    match c with
    | [] => simp [chunkLines_nil, base64Encode, wrapLines_nil]
    | x :: t =>
      rw [chunkLines_eq eol _ (by simp)]
      by_cases hlen : (x :: t).length ≤ 57
      · have hdrop : (x :: t).drop 57 = [] := by
          rw [List.drop_eq_nil_iff]
          omega
        have htake : (x :: t).take 57 = x :: t := by
          rw [List.take_of_length_le]
          omega
        rw [hdrop, htake, chunkLines_nil]
        have hblen : (base64Encode (x :: t)).length ≤ 76 := by
          rw [base64Encode_length]
          simp only [List.length_cons] at hlen ⊢
          omega
        have hbne : base64Encode (x :: t) ≠ [] := by
          intro hcon
          have hl := base64Encode_length (x :: t)
          rw [hcon] at hl
          simp only [List.length_nil, List.length_cons] at hl
          omega
        rw [wrapLines_eq eol _ hbne]
        rw [List.take_of_length_le hblen]
        have hd : (base64Encode (x :: t)).drop 76 = [] := by
          rw [List.drop_eq_nil_iff]
          exact hblen
        rw [hd, wrapLines_nil]
        try simp
      · -- a full 57-byte group is split off as one 76-byte line
        have hsplit : base64Encode (x :: t) =
            base64Encode ((x :: t).take 57) ++ base64Encode ((x :: t).drop 57) := by
          rw [← base64Encode_append _ _ (by rw [List.length_take]; omega)]
          rw [List.take_append_drop]
        have hlen76 : (base64Encode ((x :: t).take 57)).length = 76 := by
          rw [base64Encode_length, List.length_take]
          have hm : min 57 (x :: t).length = 57 := by omega
          rw [hm]
        rw [ih ((x :: t).drop 57)
          (by
            simp only [List.length_drop]
            simp only [List.length_cons] at hc ⊢
            omega)]
        conv_rhs => rw [hsplit]
        rw [wrapLines_append76 eol 76 _ _ (by omega) (by rw [hlen76])]
        rw [wrapLines_exact eol _ hlen76]
        try simp [List.append_assoc]

theorem readChunkSize_eq : readChunkSize = 7296 := by
  norm_num [readChunkSize, base64DecodedLineLen]

theorem streamLoop_eq (useLF : Bool) :
    ∀ (N : Nat) (segs : List (List Nat)) (init : List Nat),
      init.length + totalLen segs + segs.length ≤ N →
      init.length ≤ readChunkSize →
      streamLoop (eolOf useLF) init segs =
        wrapLines (eolOf useLF) (base64Encode (init ++ segs.flatten)) := by
  intro N
  induction N with
  | zero =>
    intro segs init hN _
    have hsegs : segs = [] := List.eq_nil_of_length_eq_zero (by omega)
    have hinit : init = [] := List.eq_nil_of_length_eq_zero (by omega)
    subst hsegs
    subst hinit
    rw [streamLoop]
    rw [dif_pos (by
      simp only [fillLoop, List.append_nil, List.length_nil]
      rw [readChunkSize_eq]
      omega)]
    simp [fillLoop, chunkLines_nil, base64Encode, wrapLines_nil]
  | succ N ih =>
    intro segs init hN hinit
    have h1 := fillLoop_le segs (readChunkSize - init.length)
    have h2 := fillLoop_total segs (readChunkSize - init.length)
    have h3 := fillLoop_segs_le segs (readChunkSize - init.length)
    have h4 := fillLoop_join segs (readChunkSize - init.length)
    rw [streamLoop]
    by_cases hlt :
        (init ++ (fillLoop (readChunkSize - init.length) segs).1).length <
          readChunkSize
    · rw [dif_pos hlt]
      have hshort :
          (fillLoop (readChunkSize - init.length) segs).2.flatten = [] := by
        apply fillLoop_short
        simp only [List.length_append] at hlt
        omega
      have hflat :
          segs.flatten = (fillLoop (readChunkSize - init.length) segs).1 := by
        rw [← h4, hshort, List.append_nil]
      rw [hflat]
      rw [chunkLines_eq_wrapLines (eolOf useLF)
        (init ++ (fillLoop (readChunkSize - init.length) segs).1).length _
        (le_refl _)]
      simp
    · rw [dif_neg hlt]
      have hcb :
          (init ++ (fillLoop (readChunkSize - init.length) segs).1).length =
            readChunkSize := by
        simp only [List.length_append, not_lt] at hlt ⊢
        omega
      have hmeas :
          totalLen (fillLoop (readChunkSize - init.length) segs).2 +
            (fillLoop (readChunkSize - init.length) segs).2.length ≤ N := by
        have hpos : 0 < readChunkSize := by rw [readChunkSize_eq]; omega
        simp only [List.length_append] at hcb
        omega
      rw [ih (fillLoop (readChunkSize - init.length) segs).2 []
        (by simpa using hmeas) (by simp)]
      rw [chunkLines_eq_wrapLines (eolOf useLF)
        (init ++ (fillLoop (readChunkSize - init.length) segs).1).length _
        (le_refl _)]
      have hflat : init ++ segs.flatten =
          (init ++ (fillLoop (readChunkSize - init.length) segs).1) ++
            (fillLoop (readChunkSize - init.length) segs).2.flatten := by
        rw [List.append_assoc, h4]
      rw [hflat]
      rw [base64Encode_append
        (init ++ (fillLoop (readChunkSize - init.length) segs).1)
        (fillLoop (readChunkSize - init.length) segs).2.flatten
        (by rw [hcb, readChunkSize_eq])]
      rw [wrapLines_append76 (eolOf useLF)
        (base64Encode (init ++ (fillLoop (readChunkSize - init.length) segs).1)).length
        _ _ (le_refl _)
        (by rw [base64Encode_length, hcb, readChunkSize_eq])]
      simp

theorem readOnce_le (free : Nat) (segs : List (List Nat)) :
    (readOnce free segs).1.length ≤ free := by
  match segs with
  | [] => simp [readOnce]
  | seg :: rest =>
    rw [show readOnce free (seg :: rest) =
      (if seg.length ≤ free then (seg, rest)
       else (seg.take free, seg.drop free :: rest)) from rfl]
    by_cases h : seg.length ≤ free
    · rw [if_pos h]
      exact h
    · rw [if_neg h]
      simp only [List.length_take]
      omega

theorem readOnce_join (free : Nat) (segs : List (List Nat)) :
    (readOnce free segs).1 ++ (readOnce free segs).2.flatten = segs.flatten := by
  match segs with
  | [] => simp [readOnce]
  | seg :: rest =>
    rw [show readOnce free (seg :: rest) =
      (if seg.length ≤ free then (seg, rest)
       else (seg.take free, seg.drop free :: rest)) from rfl]
    by_cases h : seg.length ≤ free
    · rw [if_pos h]
      simp
    · rw [if_neg h]
      simp only [List.flatten_cons]
      rw [← List.append_assoc, List.take_append_drop]

/-- C4: for every reader delivery pattern (any segmentation of the content
into successive `Read` results, including short reads) and both line-ending
modes, the streaming path — the probe read of `EncodeCustom` followed by
`encodeContentFromReader` — produces byte-for-byte the output of the
buffered base64 path of `encodeContent` on the whole content. -/
theorem C4_stream_eq_buffered (segs : List (List Nat)) (useLF : Bool) :
    streamEncode segs useLF =
      encodeContent { emptyPart with content := segs.flatten } TeBase64 useLF := by
  show streamLoop (eolOf useLF) (readOnce readChunkSize segs).1
      (readOnce readChunkSize segs).2 =
    wrapLines (eolOf useLF) (base64Encode segs.flatten)
  rw [streamLoop_eq useLF
    ((readOnce readChunkSize segs).1.length +
      totalLen (readOnce readChunkSize segs).2 +
      (readOnce readChunkSize segs).2.length) _ _ (le_refl _)
    (readOnce_le readChunkSize segs)]
  rw [readOnce_join readChunkSize segs]

/-! ## Header map operations and setupMIMEHeaders -/

/-- The header mapping type: field name (canonical form) to values. -/
abbrev Headers : Type := List (List Nat × List (List Nat))

/-- `textproto.MIMEHeader.Set`: replace every value of the key with the
single new value.  encode.go always passes canonical keys, on which
textproto's canonicalization is the identity. -/
def hSet (k v : List Nat) (h : Headers) : Headers :=
  (k, [v]) :: h.filter (fun e => decide (¬(e.1 = k)))

/-- `textproto.MIMEHeader.Del`. -/
def hDel (k : List Nat) (h : Headers) : Headers :=
  h.filter (fun e => decide (¬(e.1 = k)))

/-- Whether the header contains the field. -/
def hHas (k : List Nat) (h : Headers) : Bool :=
  h.any (fun e => decide (e.1 = k))

/-- The values of a field, if present. -/
def hGet (k : List Nat) (h : Headers) : Option (List (List Nat)) :=
  (h.find? (fun e => decide (e.1 = k))).map Prod.snd

/-- Header-name and value constants used by encode.go.  They live in the
repository outside the analysed file; modelled from the spec's vocabulary
(canonical MIME field names and the standard encoding labels). -/
def hnContentEncoding : List Nat :=
  cs ['C','o','n','t','e','n','t','-','T','r','a','n','s','f','e','r','-',
    'E','n','c','o','d','i','n','g']

def hnContentType : List Nat :=
  cs ['C','o','n','t','e','n','t','-','T','y','p','e']

def hnContentDisposition : List Nat :=
  cs ['C','o','n','t','e','n','t','-','D','i','s','p','o','s','i','t','i','o','n']

def hnContentID : List Nat :=
  cs ['C','o','n','t','e','n','t','-','I','d']

def cteBase64 : List Nat := cs ['b','a','s','e','6','4']

def cteQuotedPrintable : List Nat :=
  cs ['q','u','o','t','e','d','-','p','r','i','n','t','a','b','l','e']

def utf8 : List Nat := cs ['u','t','f','-','8']

def hpCharset : List Nat := cs ['c','h','a','r','s','e','t']

def hpName : List Nat := cs ['n','a','m','e']

def hpBoundary : List Nat := cs ['b','o','u','n','d','a','r','y']

def hpFilename : List Nat := cs ['f','i','l','e','n','a','m','e']

def hpModDate : List Nat :=
  cs ['m','o','d','i','f','i','c','a','t','i','o','n','-','d','a','t','e']

def enmimePre : List Nat := cs ['e','n','m','i','m','e','-']

/-- Modelled from the spec (§6): `stringutil.UUID(p.randSource)` draws an
opaque random unique token; the token the generator would produce is
carried on the part as `randTok`. -/
def UUID (randTok : List Nat) : List Nat := randTok

/-- Modelled from the spec (§4.2): `coding.ToIDHeader` formats a
content-ID as an angle-bracketed ID header value. -/
def toIDHeader (v : List Nat) : List Nat := [60] ++ v ++ [62]

/-- Modelled from the spec (§4.2/§4.3): `mime.BEncoding.Encode(utf8, v)`,
an RFC 2047 B-encoded word with UTF-8 charset (the stdlib's length-based
word splitting is not modelled). -/
def bEncodeWord (v : List Nat) : List Nat :=
  cs ['=','?','u','t','f','-','8','?','B','?'] ++ base64Encode v ++ cs ['?','=']

/-- One byte of an RFC 2047 Q-encoded word: space becomes underscore,
printable bytes other than `=`, `?`, `_` pass through, the rest are
hex-escaped. -/
def qWordByte (b : Nat) : List Nat :=
  if b = 32 then [95]
  else if 33 ≤ b ∧ b ≤ 126 ∧ b ≠ 61 ∧ b ≠ 63 ∧ b ≠ 95 then [b]
  else [61, upperhex (b / 16), upperhex (b % 16)]

/-- Modelled from the spec (§4.2/§4.3): `mime.QEncoding.Encode(utf8, v)`,
an RFC 2047 Q-encoded word with UTF-8 charset. -/
def qEncodeWord (v : List Nat) : List Nat :=
  cs ['=','?','u','t','f','-','8','?','Q','?'] ++ (v.map qWordByte).flatten ++
    cs ['?','=']

/-- `setParamValue` from encode.go (lines 414-419): ignore empty values;
the Go map is modelled as an association list where the newest binding of
a key shadows older ones. -/
def setParamValue (k v : List Nat) (p : List (List Nat × List Nat)) :
    List (List Nat × List Nat) :=
  if v = [] then p
  else (k, v) :: p.filter (fun e => decide (¬(e.1 = k)))

/-- A byte allowed in an unquoted MIME parameter value (RFC 2045 token). -/
def tokenByte (b : Nat) : Bool :=
  decide ((33 ≤ b ∧ b ≤ 126) ∧
    b ≠ 40 ∧ b ≠ 41 ∧ b ≠ 60 ∧ b ≠ 62 ∧ b ≠ 64 ∧ b ≠ 44 ∧ b ≠ 59 ∧
    b ≠ 58 ∧ b ≠ 92 ∧ b ≠ 34 ∧ b ≠ 47 ∧ b ≠ 91 ∧ b ≠ 93 ∧ b ≠ 63 ∧ b ≠ 61)

/-- Modelled from the spec (§4.2): `mime.FormatMediaType` renders the base
type followed by each `; key=value` parameter, quoting values that are not
plain tokens; parameters with empty values never reach it (they are
omitted by `setParamValue`). -/
def formatMediaType (t : List Nat) (params : List (List Nat × List Nat)) :
    List Nat :=
  if t = [] then []
  else
    t ++ (params.map (fun kv =>
      [59, 32] ++ kv.1 ++ [61] ++
        (if kv.2.all tokenByte then kv.2 else [34] ++ kv.2 ++ [34]))).flatten

/-- `setupMIMEHeaders` (encode.go lines 141-216), split into its blocks.
Lines 146-150: if the part was parsed (non-raw), clear any stale
Content-Transfer-Encoding header so detection is authoritative. -/
def delStale (d0 : PartData) : PartData :=
  if d0.parserRaw = some false
  then { d0 with header := hDel hnContentEncoding d0.header } else d0

/-- Lines 152-165: choose the transfer encoding: 7bit for empty content,
base64 by default, and for textual buffered content the selector's verdict
(or the caller's hint), defaulting the charset to UTF-8. -/
def cteChoice (d1 : PartData) (textCteHint : TransferEncoding) :
    PartData × TransferEncoding :=
  if d1.content.length > 0 then
    if d1.textual = true ∧ d1.contentReader = none then
      ( (if d1.charset = [] then { d1 with charset := utf8 } else d1),
        (if textCteHint = TeAuto then selectTransferEncoding d1.content false
         else textCteHint) )
    else (d1, TeBase64)
  else (d1, Te7Bit)

/-- Lines 166-172: write the Content-Transfer-Encoding header for base64
and quoted-printable only (RFC 2045: 7bit is assumed when absent). -/
def setCteHeader (r : PartData × TransferEncoding) :
    PartData × TransferEncoding :=
  match r.2 with
  | TeBase64 =>
      ({ r.1 with header := hSet hnContentEncoding cteBase64 r.1.header }, r.2)
  | TeQuoted =>
      ({ r.1 with
          header := hSet hnContentEncoding cteQuotedPrintable r.1.header }, r.2)
  | _ => r

/-- Lines 144-173 combined. -/
def setupEncoding (d0 : PartData) (textCteHint : TransferEncoding) :
    PartData × TransferEncoding :=
  setCteHeader (cteChoice (delStale d0) textCteHint)

/-- Lines 174-178: generate a boundary for multipart parts without one. -/
def setupBoundary (d : PartData) (hasChild : Bool) : PartData :=
  if hasChild = true ∧ d.boundary = []
  then { d with boundary := enmimePre ++ UUID d.randTok } else d

/-- Lines 179-181: the Content-Id header. -/
def setupContentID (d : PartData) : PartData :=
  if d.contentID ≠ []
  then { d with header := hSet hnContentID (toIDHeader d.contentID) d.header }
  else d

/-- Lines 182-188: RFC 2047 encoding of the filename, chosen by the
selector in header (opaque) mode. -/
def encodedFileName (d : PartData) : List Nat :=
  match selectTransferEncoding d.fileName true with
  | TeBase64 => bEncodeWord d.fileName
  | TeQuoted => qEncodeWord d.fileName
  | _ => d.fileName

/-- Lines 189-202: the Content-Type header, built from the base type plus
charset, name and boundary parameters. -/
def setupContentTypeHeader (d : PartData) : PartData :=
  if d.contentType ≠ [] then
    let param := setParamValue hpBoundary d.boundary
      (setParamValue hpName (encodedFileName d)
        (setParamValue hpCharset d.charset d.contentTypeParams))
    let mt := formatMediaType d.contentType param
    let d2 := if mt ≠ [] then { d with contentType := mt } else d
    { d2 with header := hSet hnContentType d2.contentType d2.header }
  else d

/-- Lines 203-214: the Content-Disposition header, with filename and
modification date parameters. -/
def setupDispositionHeader (d : PartData) : PartData :=
  if d.disposition ≠ [] then
    let param :=
      match d.fileModDate with
      | some s => setParamValue hpModDate s
          (setParamValue hpFilename (encodedFileName d) [])
      | none => setParamValue hpFilename (encodedFileName d) []
    let mt := formatMediaType d.disposition param
    let d2 := if mt ≠ [] then { d with disposition := mt } else d
    { d2 with header := hSet hnContentDisposition d2.disposition d2.header }
  else d

/-- `setupMIMEHeaders` (encode.go lines 141-216): the blocks in source
order.  `hasChild` is whether `p.FirstChild != nil`. -/
def setupMIMEHeaders (d : PartData) (hasChild : Bool)
    (textCteHint : TransferEncoding) : PartData × TransferEncoding :=
  ((setupDispositionHeader (setupContentTypeHeader (setupContentID
      (setupBoundary (setupEncoding d textCteHint).1 hasChild)))),
    (setupEncoding d textCteHint).2)

theorem any_key_filter_ne (k k' : List Nat) (h : Headers) (hne : ¬k' = k) :
    (h.filter (fun e => decide (¬(e.1 = k)))).any (fun e => decide (e.1 = k')) =
      h.any (fun e => decide (e.1 = k')) := by
  induction h with
  | nil => rfl
  | cons e t ih =>
    rw [List.filter_cons]
    by_cases he : e.1 = k
    · rw [if_neg (by simp [he])]
      rw [List.any_cons, ih]
      have hd : decide (e.1 = k') = false := by
        simp only [decide_eq_false_iff_not]
        intro hc
        exact hne (hc ▸ he)
      rw [hd]
      simp
    · rw [if_pos (by simp [he])]
      rw [List.any_cons, List.any_cons, ih]

theorem find?_key_filter_ne (k k' : List Nat) (h : Headers) (hne : ¬k' = k) :
    (h.filter (fun e => decide (¬(e.1 = k)))).find?
        (fun e => decide (e.1 = k')) =
      h.find? (fun e => decide (e.1 = k')) := by
  induction h with
  | nil => rfl
  | cons e t ih =>
    rw [List.filter_cons]
    by_cases he : e.1 = k
    · rw [if_neg (by simp [he])]
      rw [ih]
      rw [List.find?_cons_of_neg _ (by
        simp only [decide_eq_true_eq]
        intro hc
        exact hne (hc ▸ he))]
    · rw [if_pos (by simp [he])]
      by_cases hk' : e.1 = k'
      · rw [List.find?_cons_of_pos _ (by simp [hk']),
          List.find?_cons_of_pos _ (by simp [hk'])]
      · rw [List.find?_cons_of_neg _ (by simp [hk']),
          List.find?_cons_of_neg _ (by simp [hk']), ih]

theorem hHas_hSet_same (k v : List Nat) (h : Headers) :
    hHas k (hSet k v h) = true := by
  simp [hHas, hSet]

theorem hHas_hSet_other (k k' v : List Nat) (h : Headers) (hne : ¬k' = k) :
    hHas k' (hSet k v h) = hHas k' h := by
  unfold hHas hSet
  rw [List.any_cons, any_key_filter_ne k k' h hne]
  have hd : (decide ((k, [v]).1 = k')) = false :=
    decide_eq_false (fun hc => hne hc.symm)
  rw [hd]
  simp

theorem hHas_hDel_same (k : List Nat) (h : Headers) :
    hHas k (hDel k h) = false := by
  unfold hHas hDel
  induction h with
  | nil => rfl
  | cons e t ih =>
    rw [List.filter_cons]
    by_cases he : e.1 = k
    · rw [if_neg (by simp [he])]
      exact ih
    · rw [if_pos (by simp [he])]
      rw [List.any_cons, ih]
      simp [he]

theorem hGet_hSet_other (k k' v : List Nat) (h : Headers) (hne : ¬k' = k) :
    hGet k' (hSet k v h) = hGet k' h := by
  unfold hGet hSet
  rw [List.find?_cons_of_neg _ (by
    simp only [decide_eq_true_eq]
    intro hc
    exact hne hc.symm)]
  rw [find?_key_filter_ne k k' h hne]

theorem hGet_hDel_other (k k' : List Nat) (h : Headers) (hne : ¬k' = k) :
    hGet k' (hDel k h) = hGet k' h := by
  unfold hGet hDel
  rw [find?_key_filter_ne k k' h hne]

theorem delStale_content (d : PartData) : (delStale d).content = d.content := by
  unfold delStale
  split <;> rfl

theorem delStale_boundary (d : PartData) :
    (delStale d).boundary = d.boundary := by
  unfold delStale
  split <;> rfl

theorem cteChoice_header (d1 : PartData) (hint : TransferEncoding) :
    (cteChoice d1 hint).1.header = d1.header := by
  unfold cteChoice
  split
  · split
    · split <;> rfl
    · rfl
  · rfl

theorem cteChoice_boundary (d1 : PartData) (hint : TransferEncoding) :
    (cteChoice d1 hint).1.boundary = d1.boundary := by
  unfold cteChoice
  split
  · split
    · split <;> rfl
    · rfl
  · rfl

theorem setCteHeader_snd (r : PartData × TransferEncoding) :
    (setCteHeader r).2 = r.2 := by
  unfold setCteHeader
  match r with
  | (d, cte) => cases cte <;> rfl

theorem setCteHeader_boundary (r : PartData × TransferEncoding) :
    (setCteHeader r).1.boundary = r.1.boundary := by
  unfold setCteHeader
  match r with
  | (d, cte) => cases cte <;> rfl

theorem setCteHeader_hHas_other (r : PartData × TransferEncoding)
    (k : List Nat) (hk : ¬k = hnContentEncoding) :
    hHas k (setCteHeader r).1.header = hHas k r.1.header := by
  unfold setCteHeader
  match r with
  | (d, cte) =>
    cases cte <;>
      first
      | rfl
      | exact hHas_hSet_other hnContentEncoding k _ d.header hk

theorem setCteHeader_hGet_other (r : PartData × TransferEncoding)
    (k : List Nat) (hk : ¬k = hnContentEncoding) :
    hGet k (setCteHeader r).1.header = hGet k r.1.header := by
  unfold setCteHeader
  match r with
  | (d, cte) =>
    cases cte <;>
      first
      | rfl
      | exact hGet_hSet_other hnContentEncoding k _ d.header hk

theorem setupBoundary_header (d : PartData) (hc : Bool) :
    (setupBoundary d hc).header = d.header := by
  unfold setupBoundary
  split <;> rfl

theorem setupBoundary_contentType (d : PartData) (hc : Bool) :
    (setupBoundary d hc).contentType = d.contentType := by
  unfold setupBoundary
  split <;> rfl

theorem setupContentID_hHas_other (d : PartData) (k : List Nat)
    (hk : ¬k = hnContentID) :
    hHas k (setupContentID d).header = hHas k d.header := by
  unfold setupContentID
  split
  · exact hHas_hSet_other hnContentID k _ d.header hk
  · rfl

theorem setupContentID_hGet_other (d : PartData) (k : List Nat)
    (hk : ¬k = hnContentID) :
    hGet k (setupContentID d).header = hGet k d.header := by
  unfold setupContentID
  split
  · exact hGet_hSet_other hnContentID k _ d.header hk
  · rfl

theorem setupContentID_boundary (d : PartData) :
    (setupContentID d).boundary = d.boundary := by
  unfold setupContentID
  split <;> rfl

theorem setupContentID_contentType (d : PartData) :
    (setupContentID d).contentType = d.contentType := by
  unfold setupContentID
  split <;> rfl

theorem setupContentTypeHeader_hHas_other (d : PartData) (k : List Nat)
    (hk : ¬k = hnContentType) :
    hHas k (setupContentTypeHeader d).header = hHas k d.header := by
  unfold setupContentTypeHeader
  split
  · dsimp only
    split
    · exact hHas_hSet_other hnContentType k _ _ hk
    · exact hHas_hSet_other hnContentType k _ _ hk
  · rfl

theorem setupContentTypeHeader_boundary (d : PartData) :
    (setupContentTypeHeader d).boundary = d.boundary := by
  unfold setupContentTypeHeader
  split
  · dsimp only
    split <;> rfl
  · rfl

theorem setupContentTypeHeader_id (d : PartData) (h : d.contentType = []) :
    setupContentTypeHeader d = d := by
  unfold setupContentTypeHeader
  rw [if_neg (by simp [h])]

theorem setupDispositionHeader_hHas_other (d : PartData) (k : List Nat)
    (hk : ¬k = hnContentDisposition) :
    hHas k (setupDispositionHeader d).header = hHas k d.header := by
  unfold setupDispositionHeader
  split
  · split <;>
      (dsimp only
       split <;> exact hHas_hSet_other hnContentDisposition k _ _ hk)
  · rfl

theorem setupDispositionHeader_hGet_other (d : PartData) (k : List Nat)
    (hk : ¬k = hnContentDisposition) :
    hGet k (setupDispositionHeader d).header = hGet k d.header := by
  unfold setupDispositionHeader
  split
  · split <;>
      (dsimp only
       split <;> exact hGet_hSet_other hnContentDisposition k _ _ hk)
  · rfl

theorem setupDispositionHeader_boundary (d : PartData) :
    (setupDispositionHeader d).boundary = d.boundary := by
  unfold setupDispositionHeader
  split
  · split <;>
      (dsimp only
       split <;> rfl)
  · rfl

/-! ## Claims C8-C10: the Content-Transfer-Encoding header, the boundary
invariant, and the absent Content-Type header. -/

theorem hHas_hDel_other (k k' : List Nat) (h : Headers) (hne : ¬k' = k) :
    hHas k' (hDel k h) = hHas k' h := by
  unfold hHas hDel
  exact any_key_filter_ne k k' h hne

theorem delStale_contentType (d : PartData) :
    (delStale d).contentType = d.contentType := by
  unfold delStale
  split <;> rfl

theorem cteChoice_contentType (d1 : PartData) (hint : TransferEncoding) :
    (cteChoice d1 hint).1.contentType = d1.contentType := by
  unfold cteChoice
  split
  · split
    · split <;> rfl
    · rfl
  · rfl

theorem setCteHeader_contentType (r : PartData × TransferEncoding) :
    (setCteHeader r).1.contentType = r.1.contentType := by
  unfold setCteHeader
  split <;> rfl

theorem delStale_hGet_other (d : PartData) (k : List Nat)
    (hk : ¬k = hnContentEncoding) :
    hGet k (delStale d).header = hGet k d.header := by
  unfold delStale
  split
  · exact hGet_hDel_other hnContentEncoding k d.header hk
  · rfl

theorem delStale_hHas_other (d : PartData) (k : List Nat)
    (hk : ¬k = hnContentEncoding) :
    hHas k (delStale d).header = hHas k d.header := by
  unfold delStale
  split
  · exact hHas_hDel_other hnContentEncoding k d.header hk
  · rfl

/-- Whether `setCteHeader` leaves the Content-Transfer-Encoding field set:
it is set exactly when the chosen encoding is base64 or quoted-printable,
or the field was already present. -/
theorem setCteHeader_hHas_cte (r : PartData × TransferEncoding) :
    hHas hnContentEncoding (setCteHeader r).1.header =
      (decide (r.2 = TeBase64) || decide (r.2 = TeQuoted) ||
        hHas hnContentEncoding r.1.header) := by
  unfold setCteHeader
  cases r with
  | mk d2 t => cases t <;> simp [hHas_hSet_same]

/-- A part whose header is clean of a stale Content-Transfer-Encoding
field, or that came from a parser (so lines 144-151 delete the field),
leaves `delStale` with the field absent. -/
theorem hHas_cte_delStale (d : PartData)
    (hclean : hHas hnContentEncoding d.header = false ∨
      d.parserRaw = some false) :
    hHas hnContentEncoding (delStale d).header = false := by
  unfold delStale
  by_cases hp : d.parserRaw = some false
  · rw [if_pos hp]
    exact hHas_hDel_same hnContentEncoding d.header
  · rw [if_neg hp]
    rcases hclean with h | h
    · exact h
    · exact absurd h hp

def c8Part : PartData :=
  { emptyPart with
    header := [(hnContentEncoding, [cteBase64])],
    content := cs ['a','b','c'], textual := true }

/-- C8, counterexample: a part with non-empty 7-bit-safe content whose
header already carries a Content-Transfer-Encoding field and that was not
built by the parser (`p.parser == nil`, so lines 144-151 do not delete the
field): setupMIMEHeaders chooses 7-bit, yet the field is still present in
the resulting header, refuting the claimed "if and only if". -/
theorem C8_counterexample :
    (setupMIMEHeaders c8Part false TeAuto).2 = Te7Bit ∧
      hHas hnContentEncoding
        (setupMIMEHeaders c8Part false TeAuto).1.header = true := by
  decide

/-- C8, corrected: for a part with non-empty content, provided its header
does not already carry a Content-Transfer-Encoding field (or the field is
deleted because the part came from a parser with non-raw content), after
setupMIMEHeaders the header contains the field iff the chosen encoding is
base64 or quoted-printable; in particular it is absent for 7-bit. -/
theorem C8_amended (d : PartData) (hasChild : Bool) (hint : TransferEncoding)
    (hc : d.content ≠ [])
    (hclean : hHas hnContentEncoding d.header = false ∨
      d.parserRaw = some false) :
    hHas hnContentEncoding (setupMIMEHeaders d hasChild hint).1.header =
        true ↔
      ((setupMIMEHeaders d hasChild hint).2 = TeBase64 ∨
        (setupMIMEHeaders d hasChild hint).2 = TeQuoted) := by
  have hred : hHas hnContentEncoding
      (setupMIMEHeaders d hasChild hint).1.header =
      hHas hnContentEncoding (setupEncoding d hint).1.header := by
    unfold setupMIMEHeaders
    rw [setupDispositionHeader_hHas_other _ _ (by decide),
      setupContentTypeHeader_hHas_other _ _ (by decide),
      setupContentID_hHas_other _ _ (by decide),
      setupBoundary_header]
  have hsnd : (setupMIMEHeaders d hasChild hint).2 =
      (cteChoice (delStale d) hint).2 := by
    unfold setupMIMEHeaders setupEncoding
    exact setCteHeader_snd _
  rw [hred, hsnd]
  unfold setupEncoding
  rw [setCteHeader_hHas_cte, cteChoice_header, hHas_cte_delStale d hclean]
  simp

def c8CleanPart : PartData :=
  { emptyPart with content := cs ['a','b','c'], textual := true }

theorem C8_witness :
    c8CleanPart.content ≠ [] ∧
      (hHas hnContentEncoding c8CleanPart.header = false ∨
        c8CleanPart.parserRaw = some false) ∧
      (hHas hnContentEncoding
          (setupMIMEHeaders c8CleanPart false TeAuto).1.header = true ↔
        ((setupMIMEHeaders c8CleanPart false TeAuto).2 = TeBase64 ∨
          (setupMIMEHeaders c8CleanPart false TeAuto).2 = TeQuoted)) :=
  ⟨by decide, Or.inl (by decide),
    C8_amended c8CleanPart false TeAuto (by decide) (Or.inl (by decide))⟩

theorem enmimePre_append_ne (t : List Nat) : enmimePre ++ t ≠ [] := by
  simp [enmimePre, cs]

def c9Part : PartData := { emptyPart with boundary := cs ['x','y','z'] }

/-- C9, counterexample: a childless part (`hasChild = false`) that arrives
with a preset boundary keeps it: lines 174-178 only generate a missing
boundary for parts with children, they never clear one, so after
setupMIMEHeaders the boundary is non-empty although the part has no
child, refuting the claimed "if and only if". -/
theorem C9_counterexample :
    (setupMIMEHeaders c9Part false TeAuto).1.boundary ≠ [] := by
  decide

/-- C9, corrected: after setupMIMEHeaders, a part with at least one child
always has a non-empty boundary, and for a part whose boundary was empty
beforehand the boundary is non-empty iff the part has a child; a preset
boundary on a childless part, however, survives. -/
theorem C9_amended (d : PartData) (hasChild : Bool)
    (hint : TransferEncoding) :
    (hasChild = true →
        (setupMIMEHeaders d hasChild hint).1.boundary ≠ []) ∧
      (d.boundary = [] →
        ((setupMIMEHeaders d hasChild hint).1.boundary ≠ [] ↔
          hasChild = true)) := by
  have hred : (setupMIMEHeaders d hasChild hint).1.boundary =
      (setupBoundary (setupEncoding d hint).1 hasChild).boundary := by
    unfold setupMIMEHeaders
    rw [setupDispositionHeader_boundary, setupContentTypeHeader_boundary,
      setupContentID_boundary]
  have hb : (setupEncoding d hint).1.boundary = d.boundary := by
    unfold setupEncoding
    rw [setCteHeader_boundary, cteChoice_boundary, delStale_boundary]
  rw [hred]
  unfold setupBoundary
  by_cases hcond : hasChild = true ∧ (setupEncoding d hint).1.boundary = []
  · rw [if_pos hcond]
    refine ⟨fun _ => ?_, fun _ => ⟨fun _ => hcond.1, fun _ => ?_⟩⟩
    · show enmimePre ++ UUID (setupEncoding d hint).1.randTok ≠ []
      exact enmimePre_append_ne _
    · show enmimePre ++ UUID (setupEncoding d hint).1.randTok ≠ []
      exact enmimePre_append_ne _
  · rw [if_neg hcond, hb]
    constructor
    · intro hch hnil
      exact hcond ⟨hch, hb.trans hnil⟩
    · intro hbe
      have hch : ¬hasChild = true := fun hh => hcond ⟨hh, hb.trans hbe⟩
      exact ⟨fun hnn => absurd hbe hnn, fun hh => absurd hh hch⟩

def c9ChildPart : PartData := { emptyPart with randTok := cs ['r'] }

theorem C9_witness :
    (true = true →
        (setupMIMEHeaders c9ChildPart true TeAuto).1.boundary ≠ []) ∧
      (c9ChildPart.boundary = [] →
        ((setupMIMEHeaders c9ChildPart true TeAuto).1.boundary ≠ [] ↔
          true = true)) :=
  C9_amended c9ChildPart true TeAuto

/-- C10: a part with an empty ContentType gets no Content-Type header from
setupMIMEHeaders at all (lines 189-202 are guarded by `ctype != ""`), even
with children, a generated boundary, a charset, a filename, a disposition
and a content-ID: both the presence and the value of the Content-Type
field are exactly what they were in the incoming header, so an
auto-generated boundary is never declared in that part's headers. -/
theorem C10_no_content_type (d : PartData) (hasChild : Bool)
    (hint : TransferEncoding) (h : d.contentType = []) :
    hGet hnContentType (setupMIMEHeaders d hasChild hint).1.header =
        hGet hnContentType d.header ∧
      hHas hnContentType (setupMIMEHeaders d hasChild hint).1.header =
        hHas hnContentType d.header := by
  have hct : (setupContentID
      (setupBoundary (setupEncoding d hint).1 hasChild)).contentType = [] := by
    rw [setupContentID_contentType, setupBoundary_contentType]
    unfold setupEncoding
    rw [setCteHeader_contentType, cteChoice_contentType, delStale_contentType]
    exact h
  unfold setupMIMEHeaders
  rw [setupContentTypeHeader_id _ hct]
  constructor
  · rw [setupDispositionHeader_hGet_other _ _ (by decide),
      setupContentID_hGet_other _ _ (by decide),
      setupBoundary_header]
    unfold setupEncoding
    rw [setCteHeader_hGet_other _ _ (by decide), cteChoice_header,
      delStale_hGet_other _ _ (by decide)]
  · rw [setupDispositionHeader_hHas_other _ _ (by decide),
      setupContentID_hHas_other _ _ (by decide),
      setupBoundary_header]
    unfold setupEncoding
    rw [setCteHeader_hHas_other _ _ (by decide), cteChoice_header,
      delStale_hHas_other _ _ (by decide)]

def c10Part : PartData :=
  { emptyPart with
    charset := utf8,
    fileName := cs ['f'],
    randTok := cs ['r'],
    content := cs ['a'],
    textual := true,
    contentID := cs ['i'],
    disposition := cs ['a','t','t','a','c','h','m','e','n','t'] }

theorem C10_witness :
    c10Part.contentType = [] ∧
      (hGet hnContentType (setupMIMEHeaders c10Part true TeAuto).1.header =
          hGet hnContentType c10Part.header ∧
        hHas hnContentType (setupMIMEHeaders c10Part true TeAuto).1.header =
          hHas hnContentType c10Part.header) :=
  ⟨rfl, C10_no_content_type c10Part true TeAuto rfl⟩

/-! ## Claim C7: sorted, deterministic header emission (encodeHeader,
lines 219-254). -/

/-- Go string ordering (`sort.Strings`): lexicographic byte order, a
proper prefix sorting first. -/
def byteLe : List Nat → List Nat → Bool
  | [], _ => true
  | _ :: _, [] => false
  | a :: as, b :: bs =>
    if a < b then true else if b < a then false else byteLe as bs

theorem byteLe_total : ∀ a b : List Nat, byteLe a b = true ∨ byteLe b a = true
  | [], _ => Or.inl rfl
  | _ :: _, [] => Or.inr rfl
  | a :: as, b :: bs => by
    by_cases hab : a < b
    · left
      simp [byteLe, hab]
    · by_cases hba : b < a
      · right
        simp [byteLe, hba]
      · have heq : a = b := by omega
        subst heq
        rcases byteLe_total as bs with h | h
        · left
          simp [byteLe, h]
        · right
          simp [byteLe, h]

theorem byteLe_trans : ∀ a b c : List Nat,
    byteLe a b = true → byteLe b c = true → byteLe a c = true
  | [], _, _, _, _ => rfl
  | _ :: _, [], _, h1, _ => by simp [byteLe] at h1
  | _ :: _, _ :: _, [], _, h2 => by simp [byteLe] at h2
  | a :: as, b :: bs, c :: cs', h1, h2 => by
    simp only [byteLe] at h1 h2 ⊢
    by_cases hab : a < b <;> by_cases hbc : b < c
    · rw [if_pos (by omega)]
    · rw [if_neg hbc] at h2
      by_cases hcb : c < b
      · rw [if_pos hcb] at h2
        simp at h2
      · rw [if_neg hcb] at h2
        rw [if_pos (by omega)]
    · rw [if_neg hab] at h1
      by_cases hba : b < a
      · rw [if_pos hba] at h1
        simp at h1
      · rw [if_neg hba] at h1
        rw [if_pos (by omega)]
    · rw [if_neg hab] at h1
      rw [if_neg hbc] at h2
      by_cases hba : b < a
      · rw [if_pos hba] at h1
        simp at h1
      · by_cases hcb : c < b
        · rw [if_pos hcb] at h2
          simp at h2
        · rw [if_neg hba] at h1
          rw [if_neg hcb] at h2
          rw [if_neg (show ¬a < c by omega), if_neg (show ¬c < a by omega)]
          exact byteLe_trans as bs cs' h1 h2

theorem byteLe_antisymm : ∀ a b : List Nat,
    byteLe a b = true → byteLe b a = true → a = b
  | [], [], _, _ => rfl
  | [], _ :: _, _, h2 => by simp [byteLe] at h2
  | _ :: _, [], h1, _ => by simp [byteLe] at h1
  | a :: as, b :: bs, h1, h2 => by
    simp only [byteLe] at h1 h2
    by_cases hab : a < b
    · rw [if_neg (by omega), if_pos hab] at h2
      simp at h2
    · by_cases hba : b < a
      · rw [if_neg hab, if_pos hba] at h1
        simp at h1
      · have heq : a = b := by omega
        subst heq
        rw [if_neg hab, if_neg hab] at h1 h2
        rw [byteLe_antisymm as bs h1 h2]

/-- The ordering as a decidable relation for `List.insertionSort`. -/
def byteLeP (a b : List Nat) : Prop := byteLe a b = true

instance (a b : List Nat) : Decidable (byteLeP a b) := by
  unfold byteLeP
  infer_instance

instance : IsTotal (List Nat) byteLeP := ⟨byteLe_total⟩

instance : IsTrans (List Nat) byteLeP := ⟨fun a b c => byteLe_trans a b c⟩

instance : IsAntisymm (List Nat) byteLeP := ⟨fun a b => byteLe_antisymm a b⟩

/-- Modelled from the spec (§4.3): `stringutil.Wrap` folds the
concatenation of its string arguments, breaking at a space once the
column limit is reached and continuing behind the mode's line break and
a folding space. -/
def wrapFold (mx : Nat) (eol : List Nat) : List Nat → Nat → List Nat
  | [], _ => []
  | b :: rest, col =>
    if b = 32 ∧ mx ≤ col then eol ++ 32 :: wrapFold mx eol rest 0
    else b :: wrapFold mx eol rest (col + 1)

/-- Modelled from the spec (§4.3): `stringutil.Wrap` at 76 columns, with
the fold sequence chosen by the line-ending mode. -/
def Wrap (mx : Nat) (lfOnly : Bool) (s : List Nat) : List Nat :=
  wrapFold mx (if lfOnly = true then [10] else [13, 10]) s 0

/-- One emitted header line (encode.go lines 227-250): RFC 2047 encode
the value when the opaque-mode selector asks for it, pick the line
terminator, fold `k ++ ":_" ++ encv ++ nl` with `stringutil.Wrap`, then
restore the space after the colon (`wb[len(k)+1] = ' '`). -/
def hdrEncv (v : List Nat) : List Nat :=
  match selectTransferEncoding v true with
  | TeBase64 => bEncodeWord v
  | TeQuoted => qEncodeWord v
  | _ => v

def headerLine (useLF : Bool) (omitNl : Bool) (k v : List Nat) : List Nat :=
  (Wrap 76 useLF (k ++ cs [':','_'] ++ hdrEncv v ++
    (if omitNl = true then []
     else if useLF = true then [10] else [13, 10]))).set (k.length + 1) 32

/-- The inner loop of encodeHeader (lines 227-251): one line per value of
the key, the newline omitted only on the very last value of the very
last key when the caller asked for it. -/
def emitValues (useLF omitLast lastKey : Bool) (k : List Nat) :
    List (List Nat) → List Nat
  | [] => []
  | v :: vs =>
    headerLine useLF (omitLast && lastKey && decide (vs = [])) k v ++
      emitValues useLF omitLast lastKey k vs

/-- `p.Header[k]`: the value list of a key (empty when absent). -/
def hVals (k : List Nat) (h : Headers) : List (List Nat) :=
  match hGet k h with
  | some vs => vs
  | none => []

/-- The outer loop of encodeHeader (lines 226-252) over an already sorted
key list. -/
def emitKeys (h : Headers) (useLF omitLast : Bool) :
    List (List Nat) → List Nat
  | [] => []
  | k :: ks =>
    emitValues useLF omitLast (decide (ks = [])) k (hVals k h) ++
      emitKeys h useLF omitLast ks

/-- `encodeHeader` (encode.go lines 219-254): collect the keys of the
header mapping, sort them (`sort.Strings`), and emit every value of every
key in sorted key order. -/
def encodeHeader (h : Headers) (useLF omitLast : Bool) : List Nat :=
  emitKeys h useLF omitLast (List.insertionSort byteLeP (h.map Prod.fst))

theorem hGet_perm (h1 h2 : Headers) (hperm : h1.Perm h2)
    (hnd : (h1.map Prod.fst).Nodup) (k : List Nat) :
    hGet k h1 = hGet k h2 := by
  unfold hGet
  have hfind : h1.find? (fun e => decide (e.1 = k))
      = h2.find? (fun e => decide (e.1 = k)) := by
    cases hf1 : h1.find? (fun e => decide (e.1 = k)) with
    | none =>
      cases hf2 : h2.find? (fun e => decide (e.1 = k)) with
      | none => rfl
      | some e =>
        have he2 := List.mem_of_find?_eq_some hf2
        have hpe := List.find?_some hf2
        have he1 : e ∈ h1 := hperm.symm.subset he2
        exact absurd hpe (List.find?_eq_none.mp hf1 e he1)
    | some e =>
      have he1 := List.mem_of_find?_eq_some hf1
      have hpe := List.find?_some hf1
      have he2 : e ∈ h2 := hperm.subset he1
      cases hf2 : h2.find? (fun e => decide (e.1 = k)) with
      | none =>
        exact absurd hpe (List.find?_eq_none.mp hf2 e he2)
      | some e2 =>
        have he22 := List.mem_of_find?_eq_some hf2
        have hpe2 := List.find?_some hf2
        have he21 : e2 ∈ h1 := hperm.symm.subset he22
        have hk1 : e.1 = k := of_decide_eq_true hpe
        have hk2 : e2.1 = k := of_decide_eq_true hpe2
        have heq : e = e2 :=
          List.inj_on_of_nodup_map hnd he1 he21 (by rw [hk1, hk2])
        rw [heq]
  rw [hfind]

theorem emitKeys_congr (h1 h2 : Headers) (useLF omitLast : Bool)
    (hv : ∀ k, hGet k h1 = hGet k h2) :
    ∀ ks, emitKeys h1 useLF omitLast ks = emitKeys h2 useLF omitLast ks
  | [] => rfl
  | k :: ks => by
    unfold emitKeys
    rw [emitKeys_congr h1 h2 useLF omitLast hv ks]
    unfold hVals
    rw [hv k]

/-- C7: encodeHeader emits the header fields with field names sorted
lexicographically (Go byte order, `byteLe`), regardless of insertion
order: the emitted key order is a sorted permutation of the stored keys,
and two header mappings holding the same fields in different insertion
orders (field names distinct, as in a Go map) produce identical output,
so encoding the same unmutated part is deterministic. -/
theorem C7_sorted_header (h1 h2 : Headers) (useLF omitLast : Bool)
    (hnd : (h1.map Prod.fst).Nodup) (hperm : h1.Perm h2) :
    List.Sorted byteLeP (List.insertionSort byteLeP (h1.map Prod.fst)) ∧
      (List.insertionSort byteLeP (h1.map Prod.fst)).Perm
        (h1.map Prod.fst) ∧
      encodeHeader h1 useLF omitLast = encodeHeader h2 useLF omitLast := by
  refine ⟨List.sorted_insertionSort byteLeP _,
    List.perm_insertionSort byteLeP _, ?_⟩
  unfold encodeHeader
  have hkeys : List.insertionSort byteLeP (h1.map Prod.fst)
      = List.insertionSort byteLeP (h2.map Prod.fst) := by
    have hp : (List.insertionSort byteLeP (h1.map Prod.fst)).Perm
        (List.insertionSort byteLeP (h2.map Prod.fst)) :=
      ((List.perm_insertionSort byteLeP _).trans
        (hperm.map Prod.fst)).trans
        (List.perm_insertionSort byteLeP _).symm
    exact List.eq_of_perm_of_sorted hp
      (List.sorted_insertionSort byteLeP _)
      (List.sorted_insertionSort byteLeP _)
  rw [← hkeys]
  exact emitKeys_congr h1 h2 useLF omitLast
    (fun k => hGet_perm h1 h2 hperm hnd k) _

def c7h1 : Headers := [(cs ['B'], [cs ['1']]), (cs ['A'], [cs ['2']])]

def c7h2 : Headers := [(cs ['A'], [cs ['2']]), (cs ['B'], [cs ['1']])]

theorem C7_witness :
    ((c7h1.map Prod.fst).Nodup ∧ c7h1.Perm c7h2) ∧
      (List.Sorted byteLeP
          (List.insertionSort byteLeP (c7h1.map Prod.fst)) ∧
        (List.insertionSort byteLeP (c7h1.map Prod.fst)).Perm
          (c7h1.map Prod.fst) ∧
        encodeHeader c7h1 false false = encodeHeader c7h2 false false) :=
  ⟨⟨by decide, by decide⟩,
    C7_sorted_header c7h1 c7h2 false false (by decide) (by decide)⟩

/-! ## Claims C5 and C6: `EncodeCustom` over the part tree (encode.go
lines 43-127). -/

/-- The probe read of `EncodeCustom` (lines 48-56): for a reader-backed
part, one `Read` into a chunk-sized buffer becomes the part's content;
the rest of the reader is consumed later by the streaming encoder. -/
def probePart (d : PartData) : PartData :=
  match d.contentReader with
  | some segs =>
    { d with
      content := (readOnce readChunkSize segs).1,
      contentReader := some (readOnce readChunkSize segs).2 }
  | none => d

/-- Lines 61-81 of `EncodeCustom`: the header block
(`encodeHeader(b, useLF, useLF)`), the unconditional `nlnl` write in
LF-only mode, and the body preceded by `crnl` in CRLF mode. -/
def headAndBody (r : PartData × TransferEncoding) (useLF : Bool) :
    List Nat :=
  encodeHeader r.1.header useLF useLF ++
    (if useLF = true then [10, 10] else []) ++
    (if 0 < r.1.content.length then
      (if useLF = true then [] else [13, 10]) ++ encodeContent r.1 r.2 useLF
    else [])

/-- The boundary marker (lines 87-93): `"\n--" + boundary` in LF-only
mode, `"\r\n--" + boundary` in CRLF mode (the end marker with its
trailing `--` sliced off). -/
def markerOf (useLF : Bool) (b : List Nat) : List Nat :=
  eolOf useLF ++ cs ['-','-'] ++ b

/-- The part tree: `Part` with its `FirstChild`/`NextSibling` chain
modelled as a list of children. -/
inductive Part : Type where
  | mk : PartData → List Part → Part

mutual

/-- `EncodeCustom` (encode.go lines 43-127): probe read, header
finalization, header block, separators, body, and the children framed by
boundary markers. -/
def encodeCustom (p : Part) (tc : TransferEncoding) (useLF : Bool) :
    List Nat :=
  match p with
  | .mk d kids =>
    headAndBody (setupMIMEHeaders (probePart d) (!kids.isEmpty) tc)
        useLF ++
      childBlock kids tc useLF
        (setupMIMEHeaders (probePart d) (!kids.isEmpty) tc).1.boundary
termination_by (sizeOf p, 2)

/-- Lines 82-126: nothing for a leaf; otherwise every child behind a
boundary marker, then the end marker and a final line break. -/
def childBlock (kids : List Part) (tc : TransferEncoding) (useLF : Bool)
    (b : List Nat) : List Nat :=
  if kids.isEmpty = true then []
  else
    encodeSiblings kids tc useLF (markerOf useLF b) ++ markerOf useLF b ++
      cs ['-','-'] ++ eolOf useLF
termination_by (sizeOf kids, 1)

/-- The child loop (lines 94-110): marker, line break, child encoding. -/
def encodeSiblings (l : List Part) (tc : TransferEncoding) (useLF : Bool)
    (mark : List Nat) : List Nat :=
  match l with
  | [] => []
  | c :: rest =>
    mark ++ eolOf useLF ++ encodeCustom c tc useLF ++
      encodeSiblings rest tc useLF mark
termination_by (sizeOf l, 0)

end

/-! ### C5: the blank-line separator. -/

theorem wrapFold_append10 (mx : Nat) (eol : List Nat) :
    ∀ (s : List Nat) (col : Nat),
      wrapFold mx eol (s ++ [10]) col = wrapFold mx eol s col ++ [10]
  | [], col => by simp [wrapFold]
  | b :: rest, col => by
    by_cases h : b = 32 ∧ mx ≤ col
    · simp only [List.cons_append, wrapFold, List.append_eq]
      rw [if_pos h, if_pos h, wrapFold_append10 mx eol rest 0]
      simp
    · simp only [List.cons_append, wrapFold, List.append_eq]
      rw [if_neg h, if_neg h, wrapFold_append10 mx eol rest (col + 1)]
      simp

theorem wrapFold_length (mx : Nat) (eol : List Nat) :
    ∀ (s : List Nat) (col : Nat),
      s.length ≤ (wrapFold mx eol s col).length
  | [], col => by simp [wrapFold]
  | b :: rest, col => by
    by_cases h : b = 32 ∧ mx ≤ col
    · simp only [wrapFold]
      rw [if_pos h]
      have := wrapFold_length mx eol rest 0
      simp only [List.length_append, List.length_cons]
      omega
    · simp only [wrapFold]
      rw [if_neg h]
      have := wrapFold_length mx eol rest (col + 1)
      simp only [List.length_cons]
      omega

theorem Wrap_append10 (mx : Nat) (lf : Bool) (s : List Nat) :
    Wrap mx lf (s ++ [10]) = Wrap mx lf s ++ [10] := by
  unfold Wrap
  exact wrapFold_append10 mx _ s 0

theorem Wrap_length (mx : Nat) (lf : Bool) (s : List Nat) :
    s.length ≤ (Wrap mx lf s).length := by
  unfold Wrap
  exact wrapFold_length mx _ s 0

theorem set_append_of_lt : ∀ (l1 l2 : List Nat) (i b : Nat),
    i < l1.length → (l1 ++ l2).set i b = l1.set i b ++ l2
  | [], _, i, _, h => by simp at h
  | a :: t, l2, 0, b, _ => by simp
  | a :: t, l2, i + 1, b, h => by
    simp only [List.cons_append, List.set, List.append_eq]
    rw [set_append_of_lt t l2 i b (by simpa using h)]

/-- Un-omitting: the header line with its newline omitted, followed by
the newline, is the fully terminated header line (LF mode). -/
theorem headerLine_omit (k v : List Nat) :
    headerLine true true k v ++ [10] = headerLine true false k v := by
  show (Wrap 76 true (k ++ cs [':','_'] ++ hdrEncv v ++ [])).set
      (k.length + 1) 32 ++ [10] =
    (Wrap 76 true (k ++ cs [':','_'] ++ hdrEncv v ++ [10])).set
      (k.length + 1) 32
  rw [List.append_nil]
  have hlen : k.length + 1 <
      (Wrap 76 true (k ++ cs [':','_'] ++ hdrEncv v)).length := by
    have h1 := Wrap_length 76 true (k ++ cs [':','_'] ++ hdrEncv v)
    have h2 : (k ++ cs [':','_'] ++ hdrEncv v).length =
        k.length + 2 + (hdrEncv v).length := by
      simp [cs]
      omega
    omega
  rw [← set_append_of_lt _ [10] _ 32 hlen, ← Wrap_append10]

theorem emitValues_flag (u o l : Bool) (ho : (o && l) = false)
    (k : List Nat) :
    ∀ vs, emitValues u o l k vs = emitValues u false false k vs
  | [] => rfl
  | v :: vs => by
    simp only [emitValues]
    rw [emitValues_flag u o l ho k vs,
      show (o && l && decide (vs = [])) = false by rw [ho]; simp,
      show (false && false && decide (vs = [])) = false by simp]

theorem emitValues_omit (k : List Nat) :
    ∀ vs, vs ≠ [] →
      emitValues true true true k vs ++ [10] = emitValues true false true k vs
  | [], h => absurd rfl h
  | [v], _ => by
    rw [show emitValues true true true k [v] =
        headerLine true true k v ++ [] from rfl,
      show emitValues true false true k [v] =
        headerLine true false k v ++ [] from rfl,
      List.append_nil, List.append_nil]
    exact headerLine_omit k v
  | v :: v2 :: vs, _ => by
    rw [show emitValues true true true k (v :: v2 :: vs) =
        headerLine true false k v ++ emitValues true true true k (v2 :: vs)
      from rfl,
      show emitValues true false true k (v :: v2 :: vs) =
        headerLine true false k v ++ emitValues true false true k (v2 :: vs)
      from rfl,
      List.append_assoc, emitValues_omit k (v2 :: vs) (by simp)]

theorem hVals_ne (h : Headers) (hv : ∀ e ∈ h, e.2 ≠ []) (k : List Nat)
    (hk : k ∈ h.map Prod.fst) : hVals k h ≠ [] := by
  obtain ⟨e, he, hke⟩ := List.mem_map.mp hk
  unfold hVals hGet
  cases hf : h.find? (fun x => decide (x.1 = k)) with
  | none =>
    have hcon := List.find?_eq_none.mp hf e he
    exact absurd (by simp [hke]) hcon
  | some e2 =>
    have he2 : e2 ∈ h := List.mem_of_find?_eq_some hf
    simp only [Option.map_some']
    exact hv e2 he2

theorem emitKeys_omit (h : Headers) :
    ∀ ks, ks ≠ [] → (∀ k ∈ ks, hVals k h ≠ []) →
      emitKeys h true true ks ++ [10] = emitKeys h true false ks
  | [], hne, _ => absurd rfl hne
  | [k], _, hv => by
    rw [show emitKeys h true true [k] =
        emitValues true true true k (hVals k h) ++ [] from rfl,
      show emitKeys h true false [k] =
        emitValues true false true k (hVals k h) ++ [] from rfl,
      List.append_nil, List.append_nil]
    exact emitValues_omit k (hVals k h) (hv k (by simp))
  | k :: k2 :: ks, _, hv => by
    rw [show emitKeys h true true (k :: k2 :: ks) =
        emitValues true true false k (hVals k h) ++
          emitKeys h true true (k2 :: ks) from rfl,
      show emitKeys h true false (k :: k2 :: ks) =
        emitValues true false false k (hVals k h) ++
          emitKeys h true false (k2 :: ks) from rfl,
      emitValues_flag true true false (by simp) k (hVals k h),
      List.append_assoc,
      emitKeys_omit h (k2 :: ks) (by simp)
        (fun x hx => hv x (List.mem_cons_of_mem k hx))]

/-- Un-omitting a whole header block: with at least one field and no
empty value list, the omitted-last-newline block plus one newline is the
fully terminated block. -/
theorem encodeHeader_omit (h : Headers) (hne : h ≠ [])
    (hv : ∀ e ∈ h, e.2 ≠ []) :
    encodeHeader h true true ++ [10] = encodeHeader h true false := by
  unfold encodeHeader
  apply emitKeys_omit
  · intro hcon
    have hp := List.perm_insertionSort byteLeP (h.map Prod.fst)
    rw [hcon] at hp
    have hmn : h.map Prod.fst = [] := hp.symm.eq_nil
    exact hne (List.map_eq_nil.mp hmn)
  · intro k hk
    exact hVals_ne h hv k
      ((List.perm_insertionSort byteLeP (h.map Prod.fst)).subset hk)

/-- C5, counterexample: in LF-only mode `EncodeCustom` writes the `nlnl`
separator unconditionally (lines 65-69), before either the body or the
children are examined: a part with no content and no children still
emits the blank-line separator — its whole output is the two newline
bytes. -/
theorem C5_counterexample :
    encodeCustom (Part.mk emptyPart []) TeAuto true = [10, 10] := by
  simp only [encodeCustom, childBlock, List.isEmpty]
  decide

/-- C5, corrected: in CRLF mode the blank-line separator (`crnl`) is
written exactly when body content follows, giving exactly one blank line
between the header block and the body; in LF-only mode the separator is
written unconditionally (even with no body and no children), and —
provided the finalized header has at least one field and no empty value
list — the output decomposes as the fully newline-terminated header
block, exactly one empty line, then the body. -/
theorem C5_amended (d : PartData) (kids : List Part) (tc : TransferEncoding)
    (hh : (setupMIMEHeaders (probePart d) (!kids.isEmpty) tc).1.header ≠ [])
    (hv : ∀ e ∈ (setupMIMEHeaders (probePart d) (!kids.isEmpty) tc).1.header,
      e.2 ≠ []) :
    encodeCustom (Part.mk d kids) tc true =
      encodeHeader
          (setupMIMEHeaders (probePart d) (!kids.isEmpty) tc).1.header
          true false ++ [10] ++
        (if 0 < (setupMIMEHeaders (probePart d) (!kids.isEmpty)
            tc).1.content.length
         then encodeContent
            (setupMIMEHeaders (probePart d) (!kids.isEmpty) tc).1
            (setupMIMEHeaders (probePart d) (!kids.isEmpty) tc).2 true
         else []) ++
        childBlock kids tc true
          (setupMIMEHeaders (probePart d) (!kids.isEmpty) tc).1.boundary ∧
    encodeCustom (Part.mk d kids) tc false =
      encodeHeader
          (setupMIMEHeaders (probePart d) (!kids.isEmpty) tc).1.header
          false false ++
        (if 0 < (setupMIMEHeaders (probePart d) (!kids.isEmpty)
            tc).1.content.length
         then [13, 10] ++ encodeContent
            (setupMIMEHeaders (probePart d) (!kids.isEmpty) tc).1
            (setupMIMEHeaders (probePart d) (!kids.isEmpty) tc).2 false
         else []) ++
        childBlock kids tc false
          (setupMIMEHeaders (probePart d) (!kids.isEmpty) tc).1.boundary := by
  constructor
  · simp only [encodeCustom, headAndBody]
    rw [← encodeHeader_omit _ hh hv]
    by_cases hcn : 0 < (setupMIMEHeaders (probePart d) (!kids.isEmpty)
        tc).1.content.length
    · rw [if_pos hcn, if_pos hcn]
      simp [List.append_assoc]
    · rw [if_neg hcn, if_neg hcn]
      simp [List.append_assoc]
  · simp only [encodeCustom, headAndBody]
    by_cases hcn : 0 < (setupMIMEHeaders (probePart d) (!kids.isEmpty)
        tc).1.content.length
    · rw [if_pos hcn, if_pos hcn]
      simp [List.append_assoc]
    · rw [if_neg hcn, if_neg hcn]
      simp [List.append_assoc]

def c5w : PartData :=
  { emptyPart with
    header := [(cs ['X'], [cs ['v']])],
    content := cs ['h','i'],
    textual := true }

theorem C5_witness :
    ((setupMIMEHeaders (probePart c5w) (!(([] : List Part)).isEmpty)
        TeAuto).1.header ≠ [] ∧
      (∀ e ∈ (setupMIMEHeaders (probePart c5w) (!(([] : List Part)).isEmpty)
          TeAuto).1.header, e.2 ≠ [])) ∧
      (encodeCustom (Part.mk c5w []) TeAuto true =
        encodeHeader
            (setupMIMEHeaders (probePart c5w) (!(([] : List Part)).isEmpty)
              TeAuto).1.header true false ++ [10] ++
          (if 0 < (setupMIMEHeaders (probePart c5w)
              (!(([] : List Part)).isEmpty) TeAuto).1.content.length
           then encodeContent
              (setupMIMEHeaders (probePart c5w)
                (!(([] : List Part)).isEmpty) TeAuto).1
              (setupMIMEHeaders (probePart c5w)
                (!(([] : List Part)).isEmpty) TeAuto).2 true
           else []) ++
          childBlock [] TeAuto true
            (setupMIMEHeaders (probePart c5w)
              (!(([] : List Part)).isEmpty) TeAuto).1.boundary ∧
      encodeCustom (Part.mk c5w []) TeAuto false =
        encodeHeader
            (setupMIMEHeaders (probePart c5w) (!(([] : List Part)).isEmpty)
              TeAuto).1.header false false ++
          (if 0 < (setupMIMEHeaders (probePart c5w)
              (!(([] : List Part)).isEmpty) TeAuto).1.content.length
           then [13, 10] ++ encodeContent
              (setupMIMEHeaders (probePart c5w)
                (!(([] : List Part)).isEmpty) TeAuto).1
              (setupMIMEHeaders (probePart c5w)
                (!(([] : List Part)).isEmpty) TeAuto).2 false
           else []) ++
          childBlock [] TeAuto false
            (setupMIMEHeaders (probePart c5w)
              (!(([] : List Part)).isEmpty) TeAuto).1.boundary) :=
  ⟨⟨by decide, by decide⟩,
    C5_amended c5w [] TeAuto (by decide) (by decide)⟩

/-! ### C6: boundary markers around children (LF-only mode). -/

/-- Number of occurrences of `pat` in `s` (count of positions where
`pat` is a prefix of the remaining suffix); intended for non-empty
`pat`. -/
def countOccur (pat : List Nat) : List Nat → Nat
  | [] => 0
  | b :: t =>
    (if pat.isPrefixOf (b :: t) then 1 else 0) + countOccur pat t

def c6xyz : List Nat := [120, 121, 122]

/-- The eight bytes `"\n--xyz--"`. -/
def c6pat8 : List Nat := [10, 45, 45, 120, 121, 122, 45, 45]

/-- The closing delimiter line `"\n--xyz--\n"`. -/
def c6pat : List Nat := c6pat8 ++ [10]

/-- The opening marker `"\n--xyz"`. -/
def c6mark : List Nat := [10, 45, 45, 120, 121, 122]

theorem countOccur_small : ∀ (pat s : List Nat), s.length < pat.length →
    countOccur pat s = 0
  | _, [], _ => rfl
  | pat, b :: t, h => by
    unfold countOccur
    rw [countOccur_small pat t (by simp at h ⊢; omega)]
    have hp0 : pat.isPrefixOf (b :: t) = false := by
      cases hp : pat.isPrefixOf (b :: t)
      · rfl
      · exfalso
        have hpre := List.isPrefixOf_iff_prefix.mp hp
        have hl := hpre.length_le
        simp at h hl
        omega
    rw [hp0]
    simp

/-- If the nine-byte closing delimiter is a prefix of `Q ++ delimiter`
with `Q` non-empty, then the eight-byte head `"\n--xyz--"` occurs at the
start of `Q` (the delimiter has no self-overlap shorter than eight). -/
theorem c6_front (Q : List Nat) (hne : Q ≠ [])
    (hp : c6pat.isPrefixOf (Q ++ c6pat) = true) :
    c6pat8.isPrefixOf Q = true := by
  obtain ⟨t, ht⟩ := List.isPrefixOf_iff_prefix.mp hp
  have h9 : c6pat.length = 9 := rfl
  by_cases h8 : 8 ≤ Q.length
  · have h := congrArg (List.take 8) ht
    rw [List.take_append_eq_append_take, List.take_append_eq_append_take]
      at h
    rw [show List.take 8 c6pat = c6pat8 from rfl,
      show (8 : Nat) - c6pat.length = 0 by omega,
      show (8 : Nat) - Q.length = 0 by omega] at h
    simp only [List.take_zero, List.append_nil] at h
    rw [List.isPrefixOf_iff_prefix, h]
    exact List.take_prefix 8 Q
  · exfalso
    have h := congrArg (List.drop Q.length) ht
    rw [List.drop_append_eq_append_drop, List.drop_append_eq_append_drop]
      at h
    rw [show Q.length - c6pat.length = 0 by omega, List.drop_zero,
      show Q.length - Q.length = 0 by omega, List.drop_zero,
      List.drop_length, List.nil_append] at h
    have h1 : 1 ≤ Q.length := by
      cases Q with
      | nil => exact absurd rfl hne
      | cons a l => simp
    have h7 : Q.length ≤ 7 := by omega
    generalize hm : Q.length = m at h h1 h7
    interval_cases m <;> simp [c6pat, c6pat8] at h

/-- Appending the closing delimiter to a string free of `"\n--xyz--"`
yields exactly one occurrence of the delimiter line. -/
theorem countOccur_append_self (Q : List Nat)
    (hQ : countOccur c6pat8 Q = 0) :
    countOccur c6pat (Q ++ c6pat) = 1 := by
  induction Q with
  | nil =>
    rw [List.nil_append]
    decide
  | cons b Q ih =>
    have hQ1 : countOccur c6pat8 Q = 0 := by
      unfold countOccur at hQ
      omega
    have hQ0 : (if c6pat8.isPrefixOf (b :: Q) then 1 else 0) = 0 := by
      unfold countOccur at hQ
      omega
    rw [List.cons_append,
      show countOccur c6pat (b :: (Q ++ c6pat)) =
        (if c6pat.isPrefixOf (b :: (Q ++ c6pat)) then 1 else 0) +
          countOccur c6pat (Q ++ c6pat) from rfl,
      ih hQ1]
    have hpre : c6pat.isPrefixOf (b :: (Q ++ c6pat)) = false := by
      cases hp : c6pat.isPrefixOf (b :: (Q ++ c6pat))
      · rfl
      · exfalso
        rw [show b :: (Q ++ c6pat) = (b :: Q) ++ c6pat from rfl] at hp
        rw [c6_front (b :: Q) (by simp) hp] at hQ0
        simp at hQ0
    rw [hpre]
    simp

theorem probePart_boundary (d : PartData) :
    (probePart d).boundary = d.boundary := by
  cases hd : d.contentReader <;> simp [probePart, hd]

/-- A preset boundary survives header finalization unchanged. -/
theorem setupMIMEHeaders_boundary_keep (d : PartData) (hc : Bool)
    (tc : TransferEncoding) (hb : d.boundary ≠ []) :
    (setupMIMEHeaders d hc tc).1.boundary = d.boundary := by
  unfold setupMIMEHeaders
  rw [setupDispositionHeader_boundary, setupContentTypeHeader_boundary,
    setupContentID_boundary]
  have he : (setupEncoding d tc).1.boundary = d.boundary := by
    unfold setupEncoding
    rw [setCteHeader_boundary, cteChoice_boundary, delStale_boundary]
  unfold setupBoundary
  rw [if_neg (by
    intro hcon
    exact hb (he ▸ hcon.2))]
  exact he

def c6inner : Part :=
  Part.mk { emptyPart with boundary := c6xyz } [Part.mk emptyPart []]

def c6badPart : Part :=
  Part.mk { emptyPart with boundary := c6xyz }
    [c6inner, Part.mk emptyPart []]

/-- C6, counterexample: a part with two children and boundary `"xyz"`
whose first child is itself a multipart part reusing boundary `"xyz"`:
the LF-only output contains the closing delimiter line `"\n--xyz--\n"`
twice (once inside the child's serialization, once at the end), not
exactly once. -/
theorem C6_counterexample :
    countOccur c6pat (encodeCustom c6badPart TeAuto true) = 2 := by
  simp only [c6badPart, c6inner, encodeCustom, childBlock, encodeSiblings,
    List.isEmpty]
  decide

/-- C6, corrected: for a part with two children and boundary `"xyz"` in
LF-only mode, the output is the part's own header/body block, then
`"\n--xyz"` plus a newline immediately before each child's
serialization, then the closing `"\n--xyz--\n"` at the very end; the
closing delimiter line occurs exactly once provided the eight bytes
`"\n--xyz--"` do not occur in everything that precedes it (the children
may otherwise reintroduce it). -/
theorem C6_amended (d : PartData) (c1 c2 : Part) (tc : TransferEncoding)
    (hb : d.boundary = c6xyz)
    (hq : countOccur c6pat8
        (headAndBody (setupMIMEHeaders (probePart d) true tc) true ++
          (c6mark ++ ([10] ++ (encodeCustom c1 tc true ++
            (c6mark ++ ([10] ++ encodeCustom c2 tc true)))))) = 0) :
    encodeCustom (Part.mk d [c1, c2]) tc true =
      headAndBody (setupMIMEHeaders (probePart d) true tc) true ++
        (c6mark ++ ([10] ++ (encodeCustom c1 tc true ++
          (c6mark ++ ([10] ++ (encodeCustom c2 tc true ++ c6pat)))))) ∧
    countOccur c6pat (encodeCustom (Part.mk d [c1, c2]) tc true) = 1 := by
  have hbd : (setupMIMEHeaders (probePart d) true tc).1.boundary =
      c6xyz := by
    rw [setupMIMEHeaders_boundary_keep _ _ _
        (by rw [probePart_boundary, hb]; simp [c6xyz]),
      probePart_boundary, hb]
  have hd1 : encodeCustom (Part.mk d [c1, c2]) tc true =
      headAndBody (setupMIMEHeaders (probePart d) true tc) true ++
        (c6mark ++ ([10] ++ (encodeCustom c1 tc true ++
          (c6mark ++ ([10] ++ (encodeCustom c2 tc true ++ c6pat)))))) := by
    simp only [encodeCustom, childBlock, encodeSiblings, List.isEmpty]
    simp [markerOf, eolOf, cs, c6mark, c6pat, c6pat8, c6xyz, hbd,
      List.append_assoc]
  refine ⟨hd1, ?_⟩
  rw [hd1]
  have hc := countOccur_append_self
    (headAndBody (setupMIMEHeaders (probePart d) true tc) true ++
      (c6mark ++ ([10] ++ (encodeCustom c1 tc true ++
        (c6mark ++ ([10] ++ encodeCustom c2 tc true)))))) hq
  simp only [List.append_assoc] at hc ⊢
  exact hc

def c6w : PartData := { emptyPart with boundary := c6xyz }

theorem C6_witness :
    (c6w.boundary = c6xyz ∧
      countOccur c6pat8
        (headAndBody (setupMIMEHeaders (probePart c6w) true TeAuto) true ++
          (c6mark ++ ([10] ++ (encodeCustom (Part.mk emptyPart []) TeAuto
              true ++
            (c6mark ++ ([10] ++ encodeCustom (Part.mk emptyPart [])
              TeAuto true)))))) = 0) ∧
    (encodeCustom (Part.mk c6w [Part.mk emptyPart [],
        Part.mk emptyPart []]) TeAuto true =
      headAndBody (setupMIMEHeaders (probePart c6w) true TeAuto) true ++
        (c6mark ++ ([10] ++ (encodeCustom (Part.mk emptyPart []) TeAuto
            true ++
          (c6mark ++ ([10] ++ (encodeCustom (Part.mk emptyPart [])
            TeAuto true ++ c6pat)))))) ∧
    countOccur c6pat (encodeCustom (Part.mk c6w [Part.mk emptyPart [],
        Part.mk emptyPart []]) TeAuto true) = 1) :=
  ⟨⟨rfl, by
      simp only [encodeCustom, childBlock, List.isEmpty]
      decide⟩,
    C6_amended c6w (Part.mk emptyPart []) (Part.mk emptyPart []) TeAuto rfl
      (by
        simp only [encodeCustom, childBlock, List.isEmpty]
        decide)⟩

end Enmime
